import Mathlib

/-!
# The xv6 boot loader (`bootmain.c`) and the segment macros of `asm.h`

A shallow embedding of `bootmain.c`: the machine is a record holding physical
memory, the IDE disk and its registers, and a chronological log of the
hardware events the loader causes.  `uint` and pointer arithmetic is
arithmetic modulo `2 ^ 32`.  Loops that the C code may run forever
(`waitdisk`, the loop of `readseg`, the loop of `bootmain`) carry a fuel
argument; running out of fuel is `none`.

The headers `bootmain.c` includes are not part of the sources at hand.  The
port and string instructions of `x86.h` are modelled together with the disk
controller; the struct layout and the magic number of `elf.h` are a parameter
(`ElfDecls`), with xv6's values as the instance `elf32`.
-/

namespace Bootmain

/-! ## Machine model -/

/-- One byte of memory or of the disk. -/
abbrev Byte := Fin 256

/-- Size of a disk sector in bytes (`#define SECTSIZE 512`). -/
def SECTSIZE : Nat := 512

/-- Hardware events and call markers, logged in the order they happen. -/
inductive Event where
  /-- A byte `val` was read from I/O port `port`. -/
  | inb (port val : Nat)
  /-- The byte `val` was written to I/O port `port`. -/
  | outb (port val : Nat)
  /-- A string input of `cnt` 32-bit words from `port` to memory at `dst`. -/
  | insl (port dst cnt : Nat)
  /-- A string store of `cnt` bytes `data` to memory at `dst`. -/
  | stosb (dst data cnt : Nat)
  /-- Marker: `readsect(dst, sect)` was called. -/
  | readsect (dst sect : Nat)
  /-- Control was transferred to the routine at `addr`. -/
  | entry (addr : Nat)
  deriving DecidableEq, Repr

/-- The state of the machine the loader runs on. -/
structure Machine where
  /-- Physical memory, byte addressed; addresses are below `2 ^ 32`. -/
  mem : Nat → Byte
  /-- Contents of the IDE drives: drive number, then byte index. -/
  disk : Nat → Nat → Byte
  /-- The values successive reads of the status port `0x1F7` will yield. -/
  status : Nat → Nat
  /-- How many reads of the status port have happened. -/
  polls : Nat
  /-- The last byte written to each I/O port. -/
  regs : Nat → Nat
  /-- Drive the data port currently delivers from. -/
  drive : Nat
  /-- Byte index on that drive of the next byte the data port delivers. -/
  cursor : Nat
  /-- Log of events so far, oldest first. -/
  trace : List Event

/-- Modelled from the spec: `x86.h` is not under src/. `inb(port)` reads one
byte from an I/O port: the status register `0x1F7` yields the next value of
the status stream, any other port reads as zero. -/
def inb (port : Nat) (m : Machine) : Nat × Machine :=
  let v := if port = 0x1F7 then m.status m.polls % 256 else 0
  (v, { m with polls := if port = 0x1F7 then m.polls + 1 else m.polls,
               trace := m.trace ++ [Event.inb port v] })

/-- Modelled from the spec: `x86.h` and the disk controller are not under src/.
`outb(port, data)` writes the low 8 bits of `data` to an I/O port.  Writing the
command `0x20` (read sectors) to `0x1F7` points the data port at the sector
whose 28-bit number is held in `0x1F3`, `0x1F4`, `0x1F5` and the low nibble of
`0x1F6`, on the drive selected by bit 4 of `0x1F6`. -/
def outb (port data : Nat) (m : Machine) : Machine :=
  let v := data % 256
  let regs : Nat → Nat := fun p => if p = port then v else m.regs p
  let issue : Bool := decide (port = 0x1F7) && decide (v = 0x20)
  { m with
    regs := regs
    drive := if issue then regs 0x1F6 / 16 % 2 else m.drive
    cursor := if issue then
        SECTSIZE * (regs 0x1F3 + 2 ^ 8 * regs 0x1F4 + 2 ^ 16 * regs 0x1F5
          + 2 ^ 24 * (regs 0x1F6 % 16))
      else m.cursor
    trace := m.trace ++ [Event.outb port v] }

/-- Distance from `dst` up to `a` in the 32-bit address space. -/
def adist (dst a : Nat) : Nat := (a + 2 ^ 32 - dst % 2 ^ 32) % 2 ^ 32

/-- Modelled from the spec: `x86.h` is not under src/. `insl(port, addr, cnt)`
is `rep insl`: it stores `cnt` 32-bit words (`4 * cnt` bytes) delivered by the
data port at `addr`, `addr + 1`, ... (addresses modulo `2 ^ 32`). -/
def insl (port dst cnt : Nat) (m : Machine) : Machine :=
  { m with
    mem := fun a =>
      if a < 2 ^ 32 ∧ adist dst a < 4 * cnt then
        (if port = 0x1F0 then m.disk m.drive (m.cursor + adist dst a) else 0)
      else m.mem a
    cursor := if port = 0x1F0 then m.cursor + 4 * cnt else m.cursor
    trace := m.trace ++ [Event.insl port dst cnt] }

/-- Modelled from the spec: `x86.h` is not under src/. `stosb(addr, data, cnt)`
is `rep stosb`: it stores the low byte of `data` at the `cnt` addresses
`addr`, `addr + 1`, ... (addresses modulo `2 ^ 32`). -/
def stosb (dst data cnt : Nat) (m : Machine) : Machine :=
  { m with
    mem := fun a =>
      if a < 2 ^ 32 ∧ adist dst a < cnt then ⟨data % 256, Nat.mod_lt _ (by decide)⟩
      else m.mem a
    trace := m.trace ++ [Event.stosb dst data cnt] }

/-! ## `waitdisk` and `readsect` -/

/-- The C function `waitdisk`: `while((inb(0x1F7) & 0xC0) != 0x40) ;`. -/
def waitdisk : Nat → Machine → Option Machine
  | 0, _ => none
  | fuel + 1, m =>
    let r := inb 0x1F7 m
    if r.1 &&& 0xC0 ≠ 0x40 then waitdisk fuel r.2 else some r.2

/-- Log the call `readsect(dst, offset)`. -/
def markReadsect (dst offset : Nat) (m : Machine) : Machine :=
  { m with trace := m.trace ++ [Event.readsect dst offset] }

/-- The C function `readsect(dst, offset)`: read one sector into `dst`. -/
def readsect (fuel dst offset : Nat) (m : Machine) : Option Machine :=
  (waitdisk fuel (markReadsect dst offset m)).bind fun m =>
  let m := outb 0x1F2 1 m
  let m := outb 0x1F3 offset m
  let m := outb 0x1F4 (offset >>> 8) m
  let m := outb 0x1F5 (offset >>> 16) m
  let m := outb 0x1F6 ((offset >>> 24) ||| 0xE0) m
  let m := outb 0x1F7 0x20 m
  (waitdisk fuel m).bind fun m =>
  some (insl 0x1F0 dst (SECTSIZE / 4) m)

/-- The values written to `port`, in order, in a log of events. -/
def portWrites (port : Nat) : List Event → List Nat
  | [] => []
  | Event.outb p v :: es => if p = port then v :: portWrites port es else portWrites port es
  | _ :: es => portWrites port es

/-- All port writes `(port, value)`, in order, in a log of events. -/
def allPortWrites : List Event → List (Nat × Nat)
  | [] => []
  | Event.outb p v :: es => (p, v) :: allPortWrites es
  | _ :: es => allPortWrites es

/-- The sector numbers passed to `readsect`, in order, in a log of events. -/
def sectorsRead : List Event → List Nat
  | [] => []
  | Event.readsect _ s :: es => s :: sectorsRead es
  | _ :: es => sectorsRead es

/-- The string inputs `(port, dst, cnt)`, in order, in a log of events. -/
def transfers : List Event → List (Nat × Nat × Nat)
  | [] => []
  | Event.insl p d c :: es => (p, d, c) :: transfers es
  | _ :: es => transfers es

/-- The disk reports ready on every read of its status register. -/
def Ready (m : Machine) : Prop := ∀ k, (m.status k % 256) &&& 0xC0 = 0x40

/-- A machine with an always-ready disk whose drive 0 holds `d`. -/
def bootMachine (d : Nat → Byte) : Machine :=
  { mem := fun _ => 0, disk := fun dr i => if dr = 0 then d i else 0,
    status := fun _ => 0x40, polls := 0, regs := fun _ => 0, drive := 0,
    cursor := 0, trace := [] }

/-- The log of `n` successive polls of the status port starting at poll `start`. -/
def pollEvents (status : Nat → Nat) (start n : Nat) : List Event :=
  (List.range n).map fun i => Event.inb 0x1F7 (status (start + i) % 256)

/-! ## `readseg` -/

/-- The loop of `readseg`:
`for(; pa < epa; pa += SECTSIZE, offset++) readsect(pa, offset);`
on 32-bit `pa` and `offset`. -/
def readsegLoop (epa : Nat) : Nat → Nat → Nat → Machine → Option Machine
  | 0, pa, _, m => if pa < epa then none else some m
  | fuel + 1, pa, offset, m =>
    if pa < epa then
      (readsect (fuel + 1) pa offset m).bind
        (readsegLoop epa fuel ((pa + SECTSIZE) % 2 ^ 32) ((offset + 1) % 2 ^ 32))
    else some m

/-- The C function `readseg(pa, count, offset)`: read `count` bytes at `offset`
of the kernel image into physical address `pa`. -/
def readseg (fuel pa count offset : Nat) (m : Machine) : Option Machine :=
  let epa := (pa + count) % 2 ^ 32
  let pa := (pa + 2 ^ 32 - offset % SECTSIZE) % 2 ^ 32
  let offset := (offset / SECTSIZE + 1) % 2 ^ 32
  readsegLoop epa fuel pa offset m

/-- Byte `i` of the kernel image: the image starts at sector 1 of drive 0. -/
def image (m : Machine) (i : Nat) : Byte := m.disk 0 (SECTSIZE + i)

/-! ## `bootmain` -/

/-- Position and width in bytes of a member of a C struct. -/
structure Field where
  /-- Byte offset of the member from the start of the struct. -/
  off : Nat
  /-- Width of the member in bytes. -/
  size : Nat

/-- The declarations `bootmain.c` takes from `elf.h`, which is not under src/:
the constant `ELF_MAGIC`, the members of `struct elfhdr` and `struct proghdr`
that `bootmain` reads, and `sizeof(struct proghdr)`. -/
structure ElfDecls where
  /-- The constant `ELF_MAGIC`. -/
  ELF_MAGIC : Nat
  /-- Member `magic` of `struct elfhdr`. -/
  elfhdr_magic : Field
  /-- Member `entry` of `struct elfhdr`. -/
  elfhdr_entry : Field
  /-- Member `phoff` of `struct elfhdr`. -/
  elfhdr_phoff : Field
  /-- Member `phnum` of `struct elfhdr`. -/
  elfhdr_phnum : Field
  /-- The value of `sizeof(struct proghdr)`. -/
  proghdr_size : Nat
  /-- Member `off` of `struct proghdr`. -/
  proghdr_off : Field
  /-- Member `paddr` of `struct proghdr`. -/
  proghdr_paddr : Field
  /-- Member `filesz` of `struct proghdr`. -/
  proghdr_filesz : Field
  /-- Member `memsz` of `struct proghdr`. -/
  proghdr_memsz : Field

/-- Modelled from the spec: `elf.h` is not under src/. These are the
declarations of xv6's `elf.h`, the standard 32-bit ELF layout: `ELF_MAGIC` is
`"\x7FELF"` read little-endian; in `struct elfhdr` the `uint` members `magic`,
`entry`, `phoff` are at bytes 0, 24, 28 and the `ushort` member `phnum` at
byte 44; `struct proghdr` has 32 bytes with the `uint` members `off`, `paddr`,
`filesz`, `memsz` at bytes 4, 12, 16, 20. -/
def elf32 : ElfDecls :=
  { ELF_MAGIC := 0x464C457F
    elfhdr_magic := ⟨0, 4⟩, elfhdr_entry := ⟨24, 4⟩, elfhdr_phoff := ⟨28, 4⟩
    elfhdr_phnum := ⟨44, 2⟩
    proghdr_size := 32
    proghdr_off := ⟨4, 4⟩, proghdr_paddr := ⟨12, 4⟩, proghdr_filesz := ⟨16, 4⟩
    proghdr_memsz := ⟨20, 4⟩ }

/-- Little-endian value of the `n` bytes at address `a` (addresses modulo `2 ^ 32`). -/
def rdLE (mem : Nat → Byte) (a : Nat) : Nat → Nat
  | 0 => 0
  | n + 1 => (mem (a % 2 ^ 32)).val + 256 * rdLE mem (a + 1) n

/-- The value of member `f` of the struct at address `base`, as a `uint`. -/
def rdField (mem : Nat → Byte) (base : Nat) (f : Field) : Nat :=
  rdLE mem (base + f.off) f.size % 2 ^ 32

/-- The scratch space `(struct elfhdr*)0x10000` of `bootmain`. -/
def ELF : Nat := 0x10000

/-- The body of the program-header loop of `bootmain` for the header at `ph`:
`pa = ph->paddr; readseg(pa, ph->filesz, ph->off);`
`if(ph->memsz > ph->filesz) stosb(pa + ph->filesz, 0, ph->memsz - ph->filesz);`.
Each member access `ph->...` reads memory when it is evaluated; the `uint`
subtraction is subtraction modulo `2 ^ 32`. -/
def loadSegment (E : ElfDecls) (fuel ph : Nat) (m : Machine) : Option Machine :=
  let pa := rdField m.mem ph E.proghdr_paddr
  (readseg fuel pa (rdField m.mem ph E.proghdr_filesz)
      (rdField m.mem ph E.proghdr_off) m).bind fun m =>
    some (if rdField m.mem ph E.proghdr_memsz > rdField m.mem ph E.proghdr_filesz then
        stosb ((pa + rdField m.mem ph E.proghdr_filesz) % 2 ^ 32) 0
          ((rdField m.mem ph E.proghdr_memsz + 2 ^ 32 - rdField m.mem ph E.proghdr_filesz)
            % 2 ^ 32) m
      else m)

/-- The program-header loop of `bootmain`: `for(; ph < eph; ph++){ ... }`. -/
def phLoop (E : ElfDecls) (eph : Nat) : Nat → Nat → Machine → Option Machine
  | 0, ph, m => if ph < eph then none else some m
  | fuel + 1, ph, m =>
    if ph < eph then
      (loadSegment E (fuel + 1) ph m).bind
        (phLoop E eph fuel ((ph + E.proghdr_size) % 2 ^ 32))
    else some m

/-- Log the call `entry()` of the routine at `addr`. -/
def callEntry (addr : Nat) (m : Machine) : Machine :=
  { m with trace := m.trace ++ [Event.entry addr] }

/-- The C function `bootmain`.  The result is the machine when `bootmain`
returns (bad magic number) or when it has called the entry point. -/
def bootmain (E : ElfDecls) (fuel : Nat) (m : Machine) : Option Machine :=
  (readseg fuel ELF 4096 0 m).bind fun m =>
    if rdField m.mem ELF E.elfhdr_magic ≠ E.ELF_MAGIC then some m
    else
      let ph := (ELF + rdField m.mem ELF E.elfhdr_phoff) % 2 ^ 32
      let eph := (ph + E.proghdr_size * rdField m.mem ELF E.elfhdr_phnum) % 2 ^ 32
      (phLoop E eph fuel ph m).bind fun m =>
        some (callEntry (rdField m.mem ELF E.elfhdr_entry) m)

/-- The addresses control was transferred to, in order, in a log of events. -/
def entryCalls : List Event → List Nat
  | [] => []
  | Event.entry a :: es => a :: entryCalls es
  | _ :: es => entryCalls es

/-- The calls `(dst, sector)` of `readsect`, in order, in a log of events. -/
def readsectCalls : List Event → List (Nat × Nat)
  | [] => []
  | Event.readsect d s :: es => (d, s) :: readsectCalls es
  | _ :: es => readsectCalls es

/-- The events that mark the progress of a load: calls of `readsect`,
zero fills and the transfer of control; port traffic is dropped. -/
def milestones (es : List Event) : List Event :=
  es.filter fun e =>
    match e with
    | Event.readsect _ _ => true
    | Event.stosb _ _ _ => true
    | Event.entry _ => true
    | _ => false

/-- The number of sectors that cover bytes `[offset, offset + count)` of the
image together with the `offset % SECTSIZE` bytes before them. -/
def nsect (count offset : Nat) : Nat :=
  (offset % SECTSIZE + count + (SECTSIZE - 1)) / SECTSIZE

/-- The calls `readsect(dst, sector)` that load those sectors to the
sector-aligned addresses around `pa`, in increasing order. -/
def segCalls (pa count offset : Nat) : List Event :=
  (List.range (nsect count offset)).map fun k =>
    Event.readsect (pa - offset % SECTSIZE + SECTSIZE * k) (offset / SECTSIZE + 1 + k)

/-! ## The image as `bootmain` reads it -/

/-- All members `bootmain` reads lie inside their structs, `struct elfhdr`
fits the first page of the image, and `struct proghdr` is not empty. -/
def ElfDecls.wf (E : ElfDecls) : Prop :=
  E.elfhdr_magic.off + E.elfhdr_magic.size ≤ 4096 ∧
  E.elfhdr_entry.off + E.elfhdr_entry.size ≤ 4096 ∧
  E.elfhdr_phoff.off + E.elfhdr_phoff.size ≤ 4096 ∧
  E.elfhdr_phnum.off + E.elfhdr_phnum.size ≤ 4096 ∧
  0 < E.proghdr_size ∧
  E.proghdr_off.off + E.proghdr_off.size ≤ E.proghdr_size ∧
  E.proghdr_paddr.off + E.proghdr_paddr.size ≤ E.proghdr_size ∧
  E.proghdr_filesz.off + E.proghdr_filesz.size ≤ E.proghdr_size ∧
  E.proghdr_memsz.off + E.proghdr_memsz.size ≤ E.proghdr_size

instance (E : ElfDecls) : Decidable E.wf := by
  unfold ElfDecls.wf
  infer_instance

/-- Member `f` of the ELF header at the start of the image on the disk. -/
def hdrField (m : Machine) (f : Field) : Nat := rdField (image m) 0 f

/-- The members of a `struct proghdr` that `bootmain` reads. -/
structure Proghdr where
  /-- Member `off`: offset of the segment in the image. -/
  off : Nat
  /-- Member `paddr`: physical address the segment is loaded to. -/
  paddr : Nat
  /-- Member `filesz`: bytes of the segment present in the image. -/
  filesz : Nat
  /-- Member `memsz`: bytes of the segment in memory. -/
  memsz : Nat

/-- Program header number `i` of the image on the disk. -/
def imageProghdr (E : ElfDecls) (m : Machine) (i : Nat) : Proghdr :=
  let base := hdrField m E.elfhdr_phoff + E.proghdr_size * i
  { off := rdField (image m) base E.proghdr_off
    paddr := rdField (image m) base E.proghdr_paddr
    filesz := rdField (image m) base E.proghdr_filesz
    memsz := rdField (image m) base E.proghdr_memsz }

/-- The program-header table of the image lies inside the first 4096 bytes,
the page `bootmain` reads into its scratch space. -/
def tableInPage (E : ElfDecls) (m : Machine) : Prop :=
  hdrField m E.elfhdr_phoff + E.proghdr_size * hdrField m E.elfhdr_phnum ≤ 4096

instance (E : ElfDecls) (m : Machine) : Decidable (tableInPage E m) := by
  unfold tableInPage
  infer_instance

/-- Loading the segment wraps no address and writes nothing into the scratch
page `[0x10000, 0x11000)`: the sectors read land in
`[paddr - off % 512, paddr - off % 512 + 512 * nsect filesz off)`, the zero
fill, if any, in `[paddr + filesz, paddr + memsz)`. -/
def Proghdr.ok (p : Proghdr) : Prop :=
  p.off % 512 ≤ p.paddr ∧ p.paddr + p.filesz + 511 < 2 ^ 32 ∧
  (p.filesz < p.memsz → p.paddr + p.memsz ≤ 2 ^ 32) ∧
  ((p.paddr - p.off % 512 + 512 * nsect p.filesz p.off ≤ 0x10000 ∧
      (p.filesz < p.memsz → p.paddr + p.memsz ≤ 0x10000)) ∨
    0x11000 ≤ p.paddr - p.off % 512)

instance (p : Proghdr) : Decidable p.ok := by
  unfold Proghdr.ok
  infer_instance

/-- The milestones of loading one segment: its sector reads, then its zero
fill if `memsz > filesz`. -/
def segEvents (p : Proghdr) : List Event :=
  segCalls p.paddr p.filesz p.off ++
    if p.filesz < p.memsz then [Event.stosb (p.paddr + p.filesz) 0 (p.memsz - p.filesz)]
    else []

/-- The milestones of loading the `k` segments `i, i + 1, ...` of the image,
in table order. -/
def phEvents (E : ElfDecls) (m : Machine) : Nat → Nat → List Event
  | _, 0 => []
  | i, k + 1 => segEvents (imageProghdr E m i) ++ phEvents E m (i + 1) k

/-- A disk given by a finite list of `(index, byte)` pairs, zero elsewhere. -/
def diskOf (l : List (Nat × Byte)) : Nat → Byte := fun i => (l.lookup i).getD 0

/-- The scratch page `[0x10000, 0x11000)` of `m` holds the first 4096 bytes
of the image on the disk of `m0`. -/
def ScratchLoaded (m0 m : Machine) : Prop :=
  ∀ a, 0x10000 ≤ a → a < 0x11000 → m.mem a = image m0 (a - 0x10000)

/-- A kernel image on disk with one program header: 16 bytes at image offset
`0x1000` go to `0x100000`, followed by 16 bytes of zero fill. -/
def oneSegmentDisk : Nat → Byte := diskOf
  [(512, 0x7F), (513, 0x45), (514, 0x4C), (515, 0x46), (536, 0x0C), (538, 0x10),
   (540, 52), (556, 1),
   (569, 0x10), (578, 0x10), (580, 0x10), (584, 0x20),
   (4608, 0xAA), (4609, 0xBB)]

/-- A kernel image on disk with two program headers in increasing address
order.  Header 0: `off = 0x1000`, `paddr = 0x100000`, `filesz = 0x10`,
`memsz = 0x280`.  Header 1: `off = 0x1300`, `paddr = 0x100300`,
`filesz = memsz = 0x20`.  Image byte `0x1200` (disk byte 5120) is `0xAA`. -/
def twoSegmentDisk : Nat → Byte := diskOf
  [(512, 0x7F), (513, 0x45), (514, 0x4C), (515, 0x46), (540, 52), (556, 2),
   (569, 0x10), (578, 0x10), (580, 0x10), (584, 0x80), (585, 0x02),
   (601, 0x13), (609, 0x03), (610, 0x10), (612, 0x20), (616, 0x20),
   (5120, 0xAA)]

/-- A kernel image on disk with a correct magic number, `phnum = 2` and
`phoff = 0xFFFEFFE0`, so that the table would start at address `0xFFFFFFE0`.
Its program header 0, at image offset `0xFFFEFFE0`, asks for one byte from
image offset 0 at `0x100000` (`paddr = 0x100000`, `filesz = memsz = 1`). -/
def wrappedTableDisk : Nat → Byte := diskOf
  [(512, 0x7F), (513, 0x45), (514, 0x4C), (515, 0x46),
   (540, 0xE0), (541, 0xFF), (542, 0xFE), (543, 0xFF), (556, 2),
   (512 + 0xFFFEFFE0 + 14, 0x10), (512 + 0xFFFEFFE0 + 16, 1), (512 + 0xFFFEFFE0 + 20, 1)]

/-- A machine with that disk, always ready, whose memory already holds the
same program header at the table address `0xFFFFFFE0`. -/
def wrappedTableMachine : Machine :=
  { bootMachine wrappedTableDisk with
    mem := diskOf [(0xFFFFFFE0 + 14, 0x10), (0xFFFFFFE0 + 16, 1), (0xFFFFFFE0 + 20, 1)] }

/-- A kernel image on disk with a correct magic number, `phnum = 1` and
`phoff = 0x1000`: the table is the first thing after the page `bootmain` reads.
Its program header asks for one byte from image offset 0 at `0x100000`
(`paddr = 0x100000`, `filesz = memsz = 1`). -/
def farTableDisk : Nat → Byte := diskOf
  [(512, 0x7F), (513, 0x45), (514, 0x4C), (515, 0x46), (541, 0x10), (556, 1),
   (512 + 0x1000 + 14, 0x10), (512 + 0x1000 + 16, 1), (512 + 0x1000 + 20, 1)]

/-! ## What a segment load writes, and the loader of the spec -/

/-- Address `a` is written by `readseg(pa, count, offset)`: some iteration `k`
of its loop is reached, which is when the pointer of every iteration up to `k`
is below the end, and `a` is one of the 512 bytes at the pointer of
iteration `k`.  All pointers are modulo `2 ^ 32`, as in `readseg`. -/
def readsegWrites (pa count offset a : Nat) : Prop :=
  ∃ k, (∀ j, j ≤ k →
      ((pa + 2 ^ 32 - offset % SECTSIZE) % 2 ^ 32 + SECTSIZE * j) % 2 ^ 32
        < (pa + count) % 2 ^ 32) ∧
    a < 2 ^ 32 ∧
    adist (((pa + 2 ^ 32 - offset % SECTSIZE) % 2 ^ 32 + SECTSIZE * k) % 2 ^ 32) a < SECTSIZE

/-- Address `a` is written by the load of the segment of program header `p`:
by its `readseg`, or by its zero fill when `memsz > filesz`. -/
def segmentWrites (p : Proghdr) (a : Nat) : Prop :=
  readsegWrites p.paddr p.filesz p.off a ∨
    (p.filesz < p.memsz ∧ a < 2 ^ 32 ∧
      adist ((p.paddr + p.filesz) % 2 ^ 32) a < p.memsz - p.filesz)

/-- The load of the segment of `p` does not write into the scratch page
`[0x10000, 0x11000)`. -/
def Proghdr.offScratch (p : Proghdr) : Prop :=
  ∀ a, 0x10000 ≤ a → a < 0x11000 → ¬ segmentWrites p a

/-- The loader of the spec for one program header `p`: load `filesz` bytes of
the image at `off` to `paddr`, then, if `memsz > filesz`, fill
`[paddr + filesz, paddr + memsz)` with zero. -/
def loadHeader (p : Proghdr) (fuel : Nat) (m : Machine) : Option Machine :=
  (readseg fuel p.paddr p.filesz p.off m).bind fun m1 =>
    some (if p.filesz < p.memsz then
        stosb ((p.paddr + p.filesz) % 2 ^ 32) 0 (p.memsz - p.filesz) m1
      else m1)

/-- The loader of the spec for the `k` program headers `i, i + 1, ...` of the
image on the disk of `m0`, in table order; the fuel goes down by one per
header, as in the loop of `bootmain`. -/
def loadHeaders (E : ElfDecls) (m0 : Machine) : Nat → Nat → Nat → Machine → Option Machine
  | 0, _, _, m => some m
  | k + 1, i, fuel, m =>
    (loadHeader (imageProghdr E m0 i) fuel m).bind (loadHeaders E m0 k (i + 1) (fuel - 1))

/-! ## `asm.h` -/

/-- The assembler directive `.word v` on x86: the low 16 bits of `v` as two
bytes, least significant first. -/
def dotWord (v : Nat) : List Nat := [v % 256, v / 256 % 256]

/-- The assembler directive `.byte v`: the low 8 bits of `v`. -/
def dotByte (v : Nat) : List Nat := [v % 256]

/-- The bytes `SEG_NULLASM` emits: `.word 0, 0; .byte 0, 0, 0, 0`. -/
def SEG_NULLASM : List Nat :=
  dotWord 0 ++ dotWord 0 ++ dotByte 0 ++ dotByte 0 ++ dotByte 0 ++ dotByte 0

/-- The bytes `SEG_ASM(type, base, lim)` emits:
`.word (((lim) >> 12) & 0xffff), ((base) & 0xffff);`
`.byte (((base) >> 16) & 0xff), (0x90 | (type)),`
`(0xC0 | (((lim) >> 28) & 0xf)), (((base) >> 24) & 0xff)`. -/
def SEG_ASM (type base lim : Nat) : List Nat :=
  dotWord ((lim >>> 12) &&& 0xffff) ++ dotWord (base &&& 0xffff) ++
  dotByte ((base >>> 16) &&& 0xff) ++ dotByte (0x90 ||| type) ++
  dotByte (0xC0 ||| ((lim >>> 28) &&& 0xf)) ++ dotByte ((base >>> 24) &&& 0xff)

/-- Executable segment (`#define STA_X 0x8`). -/
def STA_X : Nat := 0x8

/-- Writeable, for non-executable segments (`#define STA_W 0x2`). -/
def STA_W : Nat := 0x2

/-- Readable, for executable segments (`#define STA_R 0x2`). -/
def STA_R : Nat := 0x2

/-- The strings `(dst, data, cnt)` stored by `stosb`, in order, in a log of
events. -/
def stosbCalls : List Event → List (Nat × Nat × Nat)
  | [] => []
  | Event.stosb d v c :: es => (d, v, c) :: stosbCalls es
  | _ :: es => stosbCalls es

/-- The base address a descriptor encodes: the word in bytes 2-3, or'd with
byte 4 shifted by 16 and byte 7 shifted by 24. -/
def descBase (d : List Nat) : Nat :=
  (d.getD 2 0 + 256 * d.getD 3 0) ||| (d.getD 4 0 <<< 16) ||| (d.getD 7 0 <<< 24)

/-- The 20-bit limit field a descriptor encodes: the word in bytes 0-1, or'd
with the low nibble of byte 6 shifted by 16. -/
def descLimit (d : List Nat) : Nat :=
  (d.getD 0 0 + 256 * d.getD 1 0) ||| ((d.getD 6 0 &&& 0xF) <<< 16)

/-- The type field a descriptor encodes: the low nibble of byte 5. -/
def descType (d : List Nat) : Nat := d.getD 5 0 &&& 0xF

/-- A machine whose disk reports busy (`0x80`) on the first two reads of the
status port and ready (`0x50`) from then on. -/
def busyTwiceMachine : Machine :=
  { bootMachine (fun _ => 0) with status := fun k => if k < 2 then 0x80 else 0x50 }

/-- A machine with an always-ready disk of zeros and one program header in
memory at `0x10034`: `off = 0x1000`, `paddr = 0x100000`, `filesz = 0x10`,
`memsz = 0x20`. -/
def headerMachine : Machine :=
  { bootMachine (fun _ => 0) with
    mem := diskOf [(0x10039, 0x10), (0x10042, 0x10), (0x10044, 0x10), (0x10048, 0x20)] }

/-! ## Theorems -/

/-! ### Bit arithmetic of the port values -/

theorem or_mod_256 (a b : Nat) : (a ||| b) % 256 = (a % 256) ||| (b % 256) := by
  apply Nat.eq_of_testBit_eq
  intro i
  have h : (256 : Nat) = 2 ^ 8 := by norm_num
  simp only [h, Nat.testBit_mod_two_pow, Nat.testBit_or]
  cases decide (i < 8) <;> simp

theorem and_255 (a : Nat) : a &&& 0xFF = a % 256 := by
  have := Nat.and_pow_two_sub_one_eq_mod a 8
  simpa using this

theorem and_15 (a : Nat) : a &&& 0x0F = a % 16 := by
  have := Nat.and_pow_two_sub_one_eq_mod a 4
  simpa using this

theorem or_224_of_lt (t : Nat) (h : t < 16) : t ||| 224 = t + 224 := by
  interval_cases t <;> rfl

/-- The byte `readsect` writes to the device-select register `0x1F6`. -/
theorem devsel_value (s : Nat) :
    (s >>> 24 ||| 0xE0) % 256 = ((s >>> 24) &&& 0xFF) ||| 0xE0 := by
  rw [or_mod_256, and_255]

theorem devsel_small (s : Nat) (h : s < 2 ^ 28) :
    (s >>> 24 ||| 0xE0) % 256 = s / 2 ^ 24 + 224 := by
  have h1 : s >>> 24 = s / 2 ^ 24 := Nat.shiftRight_eq_div_pow s 24
  have h2 : s / 2 ^ 24 < 16 := by omega
  rw [h1, or_224_of_lt _ h2]
  omega

/-! ### `waitdisk` -/

theorem pollEvents_succ_front (status : Nat → Nat) (start n : Nat) :
    pollEvents status start (n + 1)
      = Event.inb 0x1F7 (status start % 256) :: pollEvents status (start + 1) n := by
  simp only [pollEvents, List.range_succ_eq_map, List.map_cons, List.map_map, Nat.add_zero]
  congr 1
  apply List.map_congr_left
  intro i _
  simp [Nat.add_assoc, Nat.add_comm 1 i]

theorem waitdisk_some (fuel : Nat) : ∀ (m m' : Machine), waitdisk fuel m = some m' →
    ∃ n, n < fuel ∧ m' = { m with
      polls := m.polls + (n + 1)
      trace := m.trace ++ pollEvents m.status m.polls (n + 1) } := by
  induction fuel with
  | zero => intro m m' h; simp [waitdisk] at h
  | succ fuel ih =>
    intro m m' h
    simp only [waitdisk, inb, if_true] at h
    split at h
    · obtain ⟨n, hn, rfl⟩ := ih _ _ h
      refine ⟨n + 1, by omega, ?_⟩
      simp [pollEvents_succ_front _ m.polls (n + 1), Nat.add_assoc, Nat.add_comm 1]
    · refine ⟨0, by omega, ?_⟩
      simp at h
      subst h
      simp [pollEvents, List.range_succ]

theorem waitdisk_ready (fuel : Nat) (m : Machine) (h : Ready m) :
    waitdisk (fuel + 1) m = some { m with
      polls := m.polls + 1
      trace := m.trace ++ [Event.inb 0x1F7 (m.status m.polls % 256)] } := by
  have := h m.polls
  simp [waitdisk, inb, this]

/-! ### Projections of the event log -/

theorem portWrites_append (p : Nat) (a b : List Event) :
    portWrites p (a ++ b) = portWrites p a ++ portWrites p b := by
  induction a with
  | nil => rfl
  | cons e es ih => cases e <;> simp [portWrites, ih]; split <;> simp

theorem allPortWrites_append (a b : List Event) :
    allPortWrites (a ++ b) = allPortWrites a ++ allPortWrites b := by
  induction a with
  | nil => rfl
  | cons e es ih => cases e <;> simp [allPortWrites, ih]

theorem sectorsRead_append (a b : List Event) :
    sectorsRead (a ++ b) = sectorsRead a ++ sectorsRead b := by
  induction a with
  | nil => rfl
  | cons e es ih => cases e <;> simp [sectorsRead, ih]

theorem transfers_append (a b : List Event) :
    transfers (a ++ b) = transfers a ++ transfers b := by
  induction a with
  | nil => rfl
  | cons e es ih => cases e <;> simp [transfers, ih]

theorem entryCalls_append (a b : List Event) :
    entryCalls (a ++ b) = entryCalls a ++ entryCalls b := by
  induction a with
  | nil => rfl
  | cons e es ih => cases e <;> simp [entryCalls, ih]

theorem readsectCalls_append (a b : List Event) :
    readsectCalls (a ++ b) = readsectCalls a ++ readsectCalls b := by
  induction a with
  | nil => rfl
  | cons e es ih => cases e <;> simp [readsectCalls, ih]

theorem pollEvents_proj (st : Nat → Nat) (k n : Nat) :
    allPortWrites (pollEvents st k n) = [] ∧ sectorsRead (pollEvents st k n) = []
      ∧ transfers (pollEvents st k n) = [] ∧ entryCalls (pollEvents st k n) = []
      ∧ readsectCalls (pollEvents st k n) = [] ∧ ∀ p, portWrites p (pollEvents st k n) = [] := by
  induction n generalizing k with
  | zero => simp [pollEvents, allPortWrites, sectorsRead, transfers, entryCalls, readsectCalls,
      portWrites]
  | succ n ih =>
    rw [pollEvents_succ_front]
    simp [allPortWrites, sectorsRead, transfers, entryCalls, readsectCalls, portWrites, ih]

/-! ### `readsect` -/

/-- Everything a completed `readsect(dst, s)` does to the machine. -/
theorem readsect_some (fuel dst s : Nat) (m m' : Machine)
    (h : readsect fuel dst s m = some m') :
    m'.disk = m.disk ∧ m'.status = m.status ∧
    (∀ a, m'.mem a =
      if a < 2 ^ 32 ∧ adist dst a < 512 then
        m.disk ((s >>> 24 ||| 0xE0) % 256 / 16 % 2)
          (512 * (s % 256 + 2 ^ 8 * (s >>> 8 % 256) + 2 ^ 16 * (s >>> 16 % 256)
            + 2 ^ 24 * ((s >>> 24 ||| 0xE0) % 256 % 16)) + adist dst a)
      else m.mem a) ∧
    ∃ n1 n2, m'.trace = m.trace ++ (Event.readsect dst s ::
      (pollEvents m.status m.polls (n1 + 1) ++
        ([Event.outb 0x1F2 1, Event.outb 0x1F3 (s % 256), Event.outb 0x1F4 (s >>> 8 % 256),
          Event.outb 0x1F5 (s >>> 16 % 256), Event.outb 0x1F6 ((s >>> 24 ||| 0xE0) % 256),
          Event.outb 0x1F7 0x20] ++
        (pollEvents m.status (m.polls + (n1 + 1)) (n2 + 1) ++
          [Event.insl 0x1F0 dst 128])))) := by
  simp only [readsect, Option.bind_eq_some] at h
  obtain ⟨m1, h1, m2, h2, h3⟩ := h
  obtain ⟨n1, _, rfl⟩ := waitdisk_some _ _ _ h1
  obtain ⟨n2, _, rfl⟩ := waitdisk_some _ _ _ h2
  simp only [Option.some.injEq] at h3
  subst h3
  refine ⟨by simp [insl, outb, markReadsect], by simp [insl, outb, markReadsect], ?_,
    n1, n2, by simp [insl, outb, markReadsect, SECTSIZE]⟩
  intro a
  simp [insl, outb, markReadsect, SECTSIZE]

/-- On an always-ready disk `readsect` returns, whatever the fuel above zero. -/
theorem readsect_ready (fuel dst s : Nat) (m : Machine) (h : Ready m) :
    ∃ m', readsect (fuel + 1) dst s m = some m' := by
  have h1 := waitdisk_ready fuel (markReadsect dst s m) h
  simp only [readsect, h1, Option.some_bind]
  rw [waitdisk_ready]
  · simp
  · exact h

/-- C9: whenever `readsect(dst, s)` completes, the port writes it issued are
exactly `0x1F2 <- 1`, `0x1F3 <- s & 0xFF`, `0x1F4 <- (s>>8) & 0xFF`,
`0x1F5 <- (s>>16) & 0xFF`, `0x1F6 <- ((s>>24) & 0xFF) | 0xE0`, `0x1F7 <- 0x20`,
in this order; its only data transfer is 128 32-bit words from port `0x1F0` to
`dst`, it is the last thing `readsect` does, and no memory outside the 512
bytes at `dst` changes. -/
theorem readsect_port_protocol (fuel dst s : Nat) (m m' : Machine)
    (h : readsect fuel dst s m = some m') :
    ∃ ev, m'.trace = m.trace ++ ev ∧
      allPortWrites ev = [(0x1F2, 1), (0x1F3, s &&& 0xFF), (0x1F4, (s >>> 8) &&& 0xFF),
        (0x1F5, (s >>> 16) &&& 0xFF), (0x1F6, ((s >>> 24) &&& 0xFF) ||| 0xE0),
        (0x1F7, 0x20)] ∧
      transfers ev = [(0x1F0, dst, 128)] ∧
      ev.getLast? = some (Event.insl 0x1F0 dst 128) ∧
      ∀ a, ¬ (a < 2 ^ 32 ∧ adist dst a < 512) → m'.mem a = m.mem a := by
  obtain ⟨_, _, hmem, n1, n2, htr⟩ := readsect_some fuel dst s m m' h
  refine ⟨_, htr, ?_, ?_, ?_, ?_⟩
  · simp [allPortWrites, allPortWrites_append, (pollEvents_proj _ _ _).1, and_255,
      devsel_value]
  · simp [transfers, transfers_append, (pollEvents_proj _ _ _).2.2.1]
  · simp [List.getLast?_cons, List.getLast?_append]
  · intro a ha
    rw [hmem a, if_neg ha]

/-- C9 witness: sector 5 read to `0x8000` on an always-ready disk. -/
theorem readsect_port_protocol_witness :
    ∃ m', readsect 1 0x8000 5 (bootMachine fun _ => 0) = some m' ∧
      ∃ ev, m'.trace = (bootMachine fun _ => 0).trace ++ ev ∧
      allPortWrites ev = [(0x1F2, 1), (0x1F3, 5 &&& 0xFF), (0x1F4, (5 >>> 8) &&& 0xFF),
        (0x1F5, (5 >>> 16) &&& 0xFF), (0x1F6, ((5 >>> 24) &&& 0xFF) ||| 0xE0),
        (0x1F7, 0x20)] ∧
      transfers ev = [(0x1F0, 0x8000, 128)] ∧
      ev.getLast? = some (Event.insl 0x1F0 0x8000 128) ∧
      ∀ a, ¬ (a < 2 ^ 32 ∧ adist 0x8000 a < 512) →
        m'.mem a = (bootMachine fun _ => 0).mem a :=
  ⟨_, rfl, readsect_port_protocol 1 0x8000 5 _ _ rfl⟩
/-- C10 (as stated) fails: for sector `2 ^ 28` the byte written to `0x1F6` is
`0xF0`, not `((s >> 24) & 0x0F) | 0xE0 = 0xE0`, and its top nibble is `0xF`. -/
theorem devsel_counterexample :
    (readsect 1 0 (2 ^ 28) (bootMachine fun _ => 0)).map (fun m => portWrites 0x1F6 m.trace)
        = some [0xF0] ∧
      ¬ ((readsect 1 0 (2 ^ 28) (bootMachine fun _ => 0)).map
          (fun m => portWrites 0x1F6 m.trace)
        = some [((2 ^ 28 >>> 24) &&& 0x0F) ||| 0xE0]) ∧
      (0xF0 / 16 : Nat) ≠ 0xE := by
  decide

/-- C10 (amended): for every sector number `s < 2 ^ 28`, a completed
`readsect(dst, s)` writes to the device-select register `0x1F6` exactly once,
the value `((s >> 24) & 0x0F) | 0xE0`, whose top nibble is `0xE`. -/
theorem devsel_28bit (fuel dst s : Nat) (m m' : Machine) (hs : s < 2 ^ 28)
    (h : readsect fuel dst s m = some m') :
    ∃ ev, m'.trace = m.trace ++ ev ∧
      portWrites 0x1F6 ev = [((s >>> 24) &&& 0x0F) ||| 0xE0] ∧
      (((s >>> 24) &&& 0x0F) ||| 0xE0) / 16 = 0xE := by
  obtain ⟨_, _, _, n1, n2, htr⟩ := readsect_some fuel dst s m m' h
  have h1 : s >>> 24 = s / 2 ^ 24 := Nat.shiftRight_eq_div_pow s 24
  have h2 : s / 2 ^ 24 < 16 := by omega
  have h3 : ((s >>> 24) &&& 0x0F) ||| 0xE0 = s / 2 ^ 24 + 224 := by
    rw [and_15, h1, Nat.mod_eq_of_lt h2, or_224_of_lt _ h2]
  refine ⟨_, htr, ?_, ?_⟩
  · simp [portWrites, portWrites_append, (pollEvents_proj _ _ _).2.2.2.2.2]
    rw [h3, ← devsel_small s hs]
  · rw [h3]; omega

/-- C10 witness: sector `0x0ABCDEF0` on an always-ready disk. -/
theorem devsel_28bit_witness :
    ∃ m', readsect 1 0 0x0ABCDEF0 (bootMachine fun _ => 0) = some m' ∧
      ∃ ev, m'.trace = (bootMachine fun _ => 0).trace ++ ev ∧
      portWrites 0x1F6 ev = [((0x0ABCDEF0 >>> 24) &&& 0x0F) ||| 0xE0] ∧
      (((0x0ABCDEF0 >>> 24) &&& 0x0F) ||| 0xE0) / 16 = 0xE :=
  ⟨_, rfl, devsel_28bit 1 0 0x0ABCDEF0 _ _ (by decide) rfl⟩
/-! ### Addresses -/

theorem adist_window (dst a c : Nat) (h : dst + c ≤ 2 ^ 32) :
    (a < 2 ^ 32 ∧ adist dst a < c) ↔ (dst ≤ a ∧ a < dst + c) := by
  unfold adist
  constructor
  · rintro ⟨h1, h2⟩
    by_cases hc : dst ≤ a
    · refine ⟨hc, ?_⟩
      omega
    · omega
  · rintro ⟨h1, h2⟩
    refine ⟨by omega, ?_⟩
    omega

theorem adist_eq_sub (dst a : Nat) (h1 : dst ≤ a) (h2 : a < 2 ^ 32) :
    adist dst a = a - dst := by
  unfold adist
  omega

/-! ### Milestones -/

theorem milestones_append (a b : List Event) :
    milestones (a ++ b) = milestones a ++ milestones b := by
  simp [milestones]

theorem milestones_pollEvents (st : Nat → Nat) (k n : Nat) :
    milestones (pollEvents st k n) = [] := by
  simp [milestones, pollEvents]

theorem sectorsRead_milestones (l : List Event) :
    sectorsRead (milestones l) = sectorsRead l := by
  induction l with
  | nil => rfl
  | cons e es ih =>
    cases e <;> simp_all [milestones, sectorsRead, List.filter_cons]

theorem entryCalls_milestones (l : List Event) :
    entryCalls (milestones l) = entryCalls l := by
  induction l with
  | nil => rfl
  | cons e es ih =>
    cases e <;> simp_all [milestones, entryCalls, List.filter_cons]

theorem readsect_milestones (fuel dst s : Nat) (m m' : Machine)
    (h : readsect fuel dst s m = some m') :
    ∃ ev, m'.trace = m.trace ++ Event.readsect dst s :: ev ∧ milestones ev = [] := by
  obtain ⟨_, _, _, n1, n2, htr⟩ := readsect_some fuel dst s m m' h
  refine ⟨_, htr, ?_⟩
  simp only [milestones_append, milestones_pollEvents, List.nil_append]
  simp [milestones]

/-! ### `readsect` on an always-ready disk -/

theorem readsect_ok (fuel dst s : Nat) (m : Machine) (h : Ready m) (hs : s < 2 ^ 28) :
    ∃ m', readsect (fuel + 1) dst s m = some m' ∧ m'.status = m.status ∧ m'.disk = m.disk ∧
      (∀ a, m'.mem a =
        if a < 2 ^ 32 ∧ adist dst a < 512 then m.disk 0 (512 * s + adist dst a)
        else m.mem a) ∧
      ∃ ev, m'.trace = m.trace ++ Event.readsect dst s :: ev ∧ milestones ev = [] := by
  obtain ⟨m', hm'⟩ := readsect_ready fuel dst s m h
  obtain ⟨hd, hst, hmem, -⟩ := readsect_some _ dst s m m' hm'
  refine ⟨m', hm', hst, hd, ?_, readsect_milestones _ _ _ _ _ hm'⟩
  intro a
  rw [hmem a, devsel_small s hs]
  have e1 : s >>> 8 = s / 2 ^ 8 := Nat.shiftRight_eq_div_pow s 8
  have e2 : s >>> 16 = s / 2 ^ 16 := Nat.shiftRight_eq_div_pow s 16
  have e3 : (s / 2 ^ 24 + 224) / 16 % 2 = 0 := by omega
  have e4 : s % 256 + 2 ^ 8 * (s >>> 8 % 256) + 2 ^ 16 * (s >>> 16 % 256)
      + 2 ^ 24 * ((s / 2 ^ 24 + 224) % 16) = s := by
    rw [e1, e2]; omega
  rw [e3, e4]
/-! ### The loop of `readseg` -/

/-- Whenever the loop completes, its events are none at all, or start with the
call `readsect(pa, s)`. -/
theorem readsegLoop_first (epa fuel pa s : Nat) (m m' : Machine)
    (h : readsegLoop epa fuel pa s m = some m') :
    ∃ ev, m'.trace = m.trace ++ ev ∧ (ev = [] ∨ ∃ ev', ev = Event.readsect pa s :: ev') := by
  have key : ∀ (fuel pa s : Nat) (m m' : Machine), readsegLoop epa fuel pa s m = some m' →
      ∃ ev, m'.trace = m.trace ++ ev := by
    intro fuel
    induction fuel with
    | zero =>
      intro pa s m m' h
      simp only [readsegLoop] at h
      split at h
      · simp at h
      · simp only [Option.some.injEq] at h; subst h; exact ⟨[], by simp⟩
    | succ fuel ih =>
      intro pa s m m' h
      simp only [readsegLoop] at h
      split at h
      · simp only [Option.bind_eq_some] at h
        obtain ⟨m1, h1, h2⟩ := h
        obtain ⟨ev1, he1, -⟩ := readsect_milestones _ _ _ _ _ h1
        obtain ⟨ev2, he2⟩ := ih _ _ _ _ h2
        exact ⟨_, by rw [he2, he1, List.append_assoc]⟩
      · simp only [Option.some.injEq] at h; subst h; exact ⟨[], by simp⟩
  cases fuel with
  | zero =>
    simp only [readsegLoop] at h
    split at h
    · simp at h
    · simp only [Option.some.injEq] at h; subst h; exact ⟨[], by simp, Or.inl rfl⟩
  | succ fuel =>
    simp only [readsegLoop] at h
    split at h
    · simp only [Option.bind_eq_some] at h
      obtain ⟨m1, h1, h2⟩ := h
      obtain ⟨ev1, he1, -⟩ := readsect_milestones _ _ _ _ _ h1
      obtain ⟨ev2, he2⟩ := key _ _ _ _ _ h2
      refine ⟨Event.readsect pa s :: (ev1 ++ ev2), ?_, Or.inr ⟨_, rfl⟩⟩
      rw [he2, he1]; simp
    · simp only [Option.some.injEq] at h; subst h; exact ⟨[], by simp, Or.inl rfl⟩

/-- On an always-ready disk, with no address wrapping, the loop makes exactly
`n` calls, `readsect(pa + 512 k, s + k)` for `k < n`, and leaves sectors
`s .. s + n - 1` of drive 0 at `[pa, pa + 512 n)`. -/
theorem readsegLoop_ready (epa : Nat) : ∀ (n pa s fuel : Nat) (m : Machine), Ready m →
    n ≤ fuel → pa + 512 * n < 2 ^ 32 → epa ≤ pa + 512 * n →
    (∀ k, k < n → pa + 512 * k < epa) → s + n ≤ 2 ^ 28 →
    ∃ m', readsegLoop epa fuel pa s m = some m' ∧ m'.status = m.status ∧ m'.disk = m.disk ∧
      (∀ a, m'.mem a =
        if pa ≤ a ∧ a < pa + 512 * n then m.disk 0 (512 * s + (a - pa)) else m.mem a) ∧
      ∃ ev, m'.trace = m.trace ++ ev ∧
        milestones ev = (List.range n).map fun k => Event.readsect (pa + 512 * k) (s + k) := by
  intro n
  induction n with
  | zero =>
    intro pa s fuel m _ _ _ hepa _ _
    refine ⟨m, ?_, rfl, rfl, ?_, [], by simp, by simp [milestones]⟩
    · cases fuel <;> simp only [readsegLoop] <;> rw [if_neg (by omega)]
    · intro a; rw [if_neg (by omega)]
  | succ n ih =>
    intro pa s fuel m hr hf hw hepa hlt hs
    obtain ⟨fuel, rfl⟩ : ∃ f, fuel = f + 1 := ⟨fuel - 1, by omega⟩
    have h0 : pa < epa := by simpa using hlt 0 (by omega)
    obtain ⟨m1, hm1, hst1, hd1, hmem1, ev1, htr1, hms1⟩ :=
      readsect_ok fuel pa s m hr (by omega)
    have hr1 : Ready m1 := by intro k; rw [hst1]; exact hr k
    obtain ⟨m2, hm2, hst2, hd2, hmem2, ev2, htr2, hms2⟩ :=
      ih (pa + 512) (s + 1) fuel m1 hr1 (by omega) (by omega) (by omega)
        (fun k hk => by have := hlt (k + 1) (by omega); omega) (by omega)
    refine ⟨m2, ?_, by rw [hst2, hst1], by rw [hd2, hd1], ?_, ?_⟩
    · simp only [readsegLoop, if_pos h0, hm1, Option.some_bind, SECTSIZE]
      rw [Nat.mod_eq_of_lt (by omega : pa + 512 < 2 ^ 32),
        Nat.mod_eq_of_lt (by omega : s + 1 < 2 ^ 32)]
      exact hm2
    · intro a
      rw [hmem2 a, hmem1 a, hd1]
      have hwin := adist_window pa a 512 (by omega)
      by_cases c1 : pa + 512 ≤ a ∧ a < pa + 512 + 512 * n
      · rw [if_pos c1, if_pos (by omega)]
        have e : 512 * (s + 1) + (a - (pa + 512)) = 512 * s + (a - pa) := by omega
        rw [e]
      · rw [if_neg c1]
        by_cases c2 : pa ≤ a ∧ a < pa + 512
        · rw [if_pos (hwin.mpr c2), if_pos (by omega), adist_eq_sub pa a c2.1 (by omega)]
        · rw [if_neg (fun hh => c2 (hwin.mp hh)), if_neg (by omega)]
    · refine ⟨Event.readsect pa s :: ev1 ++ ev2, by rw [htr2, htr1]; simp, ?_⟩
      have : milestones (Event.readsect pa s :: ev1 ++ ev2)
          = Event.readsect pa s :: (milestones ev1 ++ milestones ev2) := by
        simp [milestones]
      rw [this, hms1, hms2, List.range_succ_eq_map]
      simp [Function.comp_def, Nat.mul_add, Nat.add_assoc, Nat.add_comm 1]
      intro k _; omega
/-! ### `readseg` on an always-ready disk -/

/-- With `pa >= offset % 512`, `pa + count + 511 < 2 ^ 32` and an always-ready
disk, `readseg(pa, count, offset)` returns; it has made exactly the calls
`segCalls pa count offset` and has copied the `nsect count offset` sectors
around image bytes `[offset, offset + count)` to the sector-aligned range
starting at `pa - offset % 512`. -/
theorem readseg_ready (fuel pa count offset : Nat) (m : Machine) (hr : Ready m)
    (hoff : offset < 2 ^ 32) (hpa : offset % 512 ≤ pa) (hw : pa + count + 511 < 2 ^ 32)
    (hf : nsect count offset ≤ fuel) :
    ∃ m', readseg fuel pa count offset m = some m' ∧ m'.status = m.status ∧
      m'.disk = m.disk ∧
      (∀ a, m'.mem a =
        if pa - offset % 512 ≤ a ∧ a < pa - offset % 512 + 512 * nsect count offset then
          image m (offset - offset % 512 + (a - (pa - offset % 512)))
        else m.mem a) ∧
      ∃ ev, m'.trace = m.trace ++ ev ∧ milestones ev = segCalls pa count offset := by
  have hn : nsect count offset = (offset % 512 + count + 511) / 512 := rfl
  obtain ⟨m', hm', hst, hd, hmem, ev, htr, hms⟩ :=
    readsegLoop_ready (pa + count) (nsect count offset) (pa - offset % 512)
      (offset / 512 + 1) fuel m hr hf (by omega) (by omega)
      (fun k hk => by omega) (by omega)
  refine ⟨m', ?_, hst, hd, ?_, ev, htr, ?_⟩
  · simp only [readseg, SECTSIZE]
    rw [Nat.mod_eq_of_lt (by omega : pa + count < 2 ^ 32),
      Nat.mod_eq_of_lt (by omega : offset / 512 + 1 < 2 ^ 32)]
    have e : (pa + 2 ^ 32 - offset % 512) % 2 ^ 32 = pa - offset % 512 := by omega
    rw [e]
    exact hm'
  · intro a
    rw [hmem a]
    split
    · simp only [image, SECTSIZE]
      have e : 512 * (offset / 512 + 1) + (a - (pa - offset % 512))
          = 512 + (offset - offset % 512 + (a - (pa - offset % 512))) := by omega
      rw [e]
    · rfl
  · rw [hms]
    simp [segCalls, SECTSIZE]

/-- The sector numbers among the calls `segCalls pa count offset`. -/
theorem sectorsRead_segCalls (pa count offset : Nat) :
    sectorsRead (segCalls pa count offset)
      = (List.range (nsect count offset)).map fun k => offset / 512 + 1 + k := by
  unfold segCalls
  induction nsect count offset with
  | zero => rfl
  | succ n ih =>
    rw [List.range_succ, List.map_append, List.map_append, sectorsRead_append, ih]
    simp [sectorsRead, SECTSIZE]

/-- C1: with `pa >= offset % 512`, `pa + count + 511 < 2 ^ 32` and a disk that
is always ready, `readseg(pa, count, offset)` returns and afterwards
`mem[pa + i]` is byte `offset + i` of the kernel image (disk byte
`512 + offset + i`) for every `i < count`. -/
theorem readseg_copies_image (fuel pa count offset : Nat) (m : Machine) (hr : Ready m)
    (hoff : offset < 2 ^ 32) (hpa : offset % 512 ≤ pa) (hw : pa + count + 511 < 2 ^ 32)
    (hf : nsect count offset ≤ fuel) :
    ∃ m', readseg fuel pa count offset m = some m' ∧
      ∀ i, i < count → m'.mem (pa + i) = m.disk 0 (512 + offset + i) := by
  obtain ⟨m', hm', -, -, hmem, -⟩ := readseg_ready fuel pa count offset m hr hoff hpa hw hf
  refine ⟨m', hm', ?_⟩
  intro i hi
  have hn : nsect count offset = (offset % 512 + count + 511) / 512 := rfl
  rw [hmem (pa + i), if_pos (by omega)]
  simp only [image, SECTSIZE]
  have e : 512 + (offset - offset % 512 + (pa + i - (pa - offset % 512)))
      = 512 + offset + i := by omega
  rw [e]

/-- C4: under the same conditions every address written by
`readseg(pa, count, offset)` lies in `[pa - offset % 512, pa + count + 511]`:
memory below `pa - offset % 512` and above `pa + count + 511` is unchanged. -/
theorem readseg_overread_bounded (fuel pa count offset : Nat) (m : Machine) (hr : Ready m)
    (hoff : offset < 2 ^ 32) (hpa : offset % 512 ≤ pa) (hw : pa + count + 511 < 2 ^ 32)
    (hf : nsect count offset ≤ fuel) :
    ∃ m', readseg fuel pa count offset m = some m' ∧
      ∀ a, (a < pa - offset % 512 ∨ pa + count + 511 < a) → m'.mem a = m.mem a := by
  obtain ⟨m', hm', -, -, hmem, -⟩ := readseg_ready fuel pa count offset m hr hoff hpa hw hf
  refine ⟨m', hm', ?_⟩
  intro a ha
  have hn : nsect count offset = (offset % 512 + count + 511) / 512 := rfl
  rw [hmem a, if_neg (by omega)]
/-- The sample machine has an always-ready disk. -/
theorem bootMachine_ready (d : Nat → Byte) : Ready (bootMachine d) := by
  intro k
  show (64 % 256) &&& 192 = 64
  decide

/-- C1 witness: one byte at image offset 1023 loaded to address 1000. -/
theorem readseg_copies_image_witness :
    Ready (bootMachine fun i => if i = 1535 then 7 else 0) ∧ 1023 < 2 ^ 32 ∧
      1023 % 512 ≤ 1000 ∧ 1000 + 1 + 511 < 2 ^ 32 ∧ nsect 1 1023 ≤ 2 ∧
      ∃ m', readseg 2 1000 1 1023 (bootMachine fun i => if i = 1535 then 7 else 0) = some m' ∧
        ∀ i, i < 1 → m'.mem (1000 + i)
          = (bootMachine fun i => if i = 1535 then 7 else 0).disk 0 (512 + 1023 + i) :=
  ⟨bootMachine_ready _, by decide, by decide, by decide, by decide,
    readseg_copies_image 2 1000 1 1023 _ (bootMachine_ready _) (by decide) (by decide)
      (by decide) (by decide)⟩

/-- C2 (as stated) fails: `readseg(0, 1, 1)` must read sector 1, the only `s`
with `1 div 512 + 1 <= s <= (1 + 1 - 1) div 512 + 1`, but `pa - offset % 512`
wraps to `0xFFFFFFFF`, the loop condition is false at once, and `readseg`
returns having read no sector. -/
theorem readseg_cover_counterexample :
    (1 / 512 + 1 ≤ 1 ∧ 1 ≤ (1 + 1 - 1) / 512 + 1) ∧
      (readseg 5 0 1 1 (bootMachine fun _ => 0)).map (fun m => sectorsRead m.trace)
        = some [] ∧
      ¬ ((readseg 5 0 1 1 (bootMachine fun _ => 0)).map (fun m => decide (1 ∈ sectorsRead m.trace))
        = some true) := by
  decide

/-- C2 (amended): for `count > 0`, `pa >= offset % 512` and
`pa + count + 511 < 2 ^ 32`, on an always-ready disk `readseg(pa, count, offset)`
returns and has read every sector `s` with
`offset div 512 + 1 <= s <= (offset + count - 1) div 512 + 1`. -/
theorem readseg_covers (fuel pa count offset : Nat) (m : Machine) (hr : Ready m)
    (hc : 0 < count) (hoff : offset < 2 ^ 32) (hpa : offset % 512 ≤ pa)
    (hw : pa + count + 511 < 2 ^ 32) (hf : nsect count offset ≤ fuel) :
    ∃ m', readseg fuel pa count offset m = some m' ∧
      ∃ ev, m'.trace = m.trace ++ ev ∧
        ∀ s, offset / 512 + 1 ≤ s → s ≤ (offset + count - 1) / 512 + 1 →
          s ∈ sectorsRead ev := by
  obtain ⟨m', hm', -, -, -, ev, htr, hms⟩ :=
    readseg_ready fuel pa count offset m hr hoff hpa hw hf
  refine ⟨m', hm', ev, htr, ?_⟩
  intro s h1 h2
  have hn : nsect count offset = (offset % 512 + count + 511) / 512 := rfl
  rw [← sectorsRead_milestones, hms, sectorsRead_segCalls, List.mem_map]
  refine ⟨s - (offset / 512 + 1), ?_, by omega⟩
  rw [List.mem_range]
  omega

/-- C2 witness: 600 bytes at image offset 1000 loaded to address `0x100000`. -/
theorem readseg_covers_witness :
    Ready (bootMachine fun _ => 0) ∧ 0 < 600 ∧ 1000 < 2 ^ 32 ∧ 1000 % 512 ≤ 0x100000 ∧
      0x100000 + 600 + 511 < 2 ^ 32 ∧ nsect 600 1000 ≤ 3 ∧
      ∃ m', readseg 3 0x100000 600 1000 (bootMachine fun _ => 0) = some m' ∧
        ∃ ev, m'.trace = (bootMachine fun _ => 0).trace ++ ev ∧
          ∀ s, 1000 / 512 + 1 ≤ s → s ≤ (1000 + 600 - 1) / 512 + 1 → s ∈ sectorsRead ev :=
  ⟨bootMachine_ready _, by decide, by decide, by decide, by decide, by decide,
    readseg_covers 3 0x100000 600 1000 _ (bootMachine_ready _) (by decide) (by decide)
      (by decide) (by decide) (by decide)⟩

/-- C3: whenever `readseg(pa, count, offset)` completes, the first sector
number it passed to `readsect`, if it passed any, is `offset div 512 + 1`; for
`offset = 0` that is sector 1.  And it does pass one, on an always-ready disk,
when `count > 0` and no address wraps. -/
theorem readseg_first_sector (fuel pa count offset : Nat) (m : Machine)
    (hoff : offset < 2 ^ 32) :
    (∀ m', readseg fuel pa count offset m = some m' →
      ∃ ev, m'.trace = m.trace ++ ev ∧
        ∀ s, (sectorsRead ev).head? = some s →
          s = offset / 512 + 1 ∧ (offset = 0 → s = 1)) ∧
    (Ready m → 0 < count → offset % 512 ≤ pa → pa + count + 511 < 2 ^ 32 →
      nsect count offset ≤ fuel →
      ∃ m' ev, readseg fuel pa count offset m = some m' ∧ m'.trace = m.trace ++ ev ∧
        (sectorsRead ev).head? = some (offset / 512 + 1)) := by
  constructor
  · intro m' h
    simp only [readseg, SECTSIZE] at h
    rw [Nat.mod_eq_of_lt (by omega : offset / 512 + 1 < 2 ^ 32)] at h
    obtain ⟨ev, htr, hev⟩ := readsegLoop_first _ _ _ _ _ _ h
    refine ⟨ev, htr, ?_⟩
    intro s hs
    rcases hev with rfl | ⟨ev', rfl⟩
    · simp [sectorsRead] at hs
    · simp only [sectorsRead, List.head?_cons, Option.some.injEq] at hs
      subst hs
      exact ⟨rfl, fun h0 => by subst h0; rfl⟩
  · intro hr hc hpa hw hf
    obtain ⟨m', hm', -, -, -, ev, htr, hms⟩ :=
      readseg_ready fuel pa count offset m hr hoff hpa hw hf
    refine ⟨m', ev, hm', htr, ?_⟩
    have hn : nsect count offset = (offset % 512 + count + 511) / 512 := rfl
    obtain ⟨n, hn'⟩ : ∃ n, nsect count offset = n + 1 :=
      ⟨nsect count offset - 1, by omega⟩
    rw [← sectorsRead_milestones, hms, sectorsRead_segCalls, hn', List.range_succ_eq_map]
    simp

/-- C3 witness: `readseg(0x10000, 4096, 0)` starts at sector 1. -/
theorem readseg_first_sector_witness :
    0 < 2 ^ 32 ∧
      (∃ m', readseg 8 0x10000 4096 0 (bootMachine fun _ => 0) = some m' ∧
        ∃ ev, m'.trace = (bootMachine fun _ => 0).trace ++ ev ∧
          ∀ s, (sectorsRead ev).head? = some s → s = 0 / 512 + 1 ∧ (0 = 0 → s = 1)) ∧
      (∃ m' ev, readseg 8 0x10000 4096 0 (bootMachine fun _ => 0) = some m' ∧
        m'.trace = (bootMachine fun _ => 0).trace ++ ev ∧
        (sectorsRead ev).head? = some (0 / 512 + 1)) :=
  ⟨by decide,
    ⟨_, rfl, (readseg_first_sector 8 0x10000 4096 0 _ (by decide)).1 _ rfl⟩,
    (readseg_first_sector 8 0x10000 4096 0 _ (by decide)).2 (bootMachine_ready _)
      (by decide) (by decide) (by decide) (by decide)⟩

/-- C4 witness: 600 bytes at image offset 1000 loaded to address `0x100000`. -/
theorem readseg_overread_bounded_witness :
    Ready (bootMachine fun _ => 0) ∧ 1000 < 2 ^ 32 ∧ 1000 % 512 ≤ 0x100000 ∧
      0x100000 + 600 + 511 < 2 ^ 32 ∧ nsect 600 1000 ≤ 3 ∧
      ∃ m', readseg 3 0x100000 600 1000 (bootMachine fun _ => 0) = some m' ∧
        ∀ a, (a < 0x100000 - 1000 % 512 ∨ 0x100000 + 600 + 511 < a) →
          m'.mem a = (bootMachine fun _ => 0).mem a :=
  ⟨bootMachine_ready _, by decide, by decide, by decide, by decide,
    readseg_overread_bounded 3 0x100000 600 1000 _ (bootMachine_ready _) (by decide)
      (by decide) (by decide) (by decide)⟩

/-! ### Reading the header from the scratch page -/

theorem rdLE_scratch (m0 m : Machine) (hs : ScratchLoaded m0 m) :
    ∀ (n b : Nat), b + n ≤ 4096 → rdLE m.mem (0x10000 + b) n = rdLE (image m0) b n := by
  intro n
  induction n with
  | zero => intro b _; rfl
  | succ n ih =>
    intro b hb
    simp only [rdLE]
    rw [Nat.add_assoc, ih (b + 1) (by omega),
      Nat.mod_eq_of_lt (by omega : 0x10000 + b < 2 ^ 32),
      Nat.mod_eq_of_lt (by omega : b < 2 ^ 32), hs (0x10000 + b) (by omega) (by omega)]
    have e : 0x10000 + b - 0x10000 = b := by omega
    rw [e]

theorem rdField_scratch (m0 m : Machine) (hs : ScratchLoaded m0 m) (base : Nat) (f : Field)
    (h : base + f.off + f.size ≤ 4096) :
    rdField m.mem (ELF + base) f = rdField (image m0) base f := by
  simp only [rdField, ELF]
  rw [Nat.add_assoc, rdLE_scratch m0 m hs _ _ (by omega)]

theorem rdField_lt (mem : Nat → Byte) (base : Nat) (f : Field) :
    rdField mem base f < 2 ^ 32 :=
  Nat.mod_lt _ (by decide)

/-! ### Loading one segment -/

/-- With the first page of the image in the scratch page and an always-ready
disk, the loop body for program header `i` of a table inside that page, whose
load wraps no address and stays off the scratch page, returns; it has read the
segment's sectors and zero-filled `[paddr + filesz, paddr + memsz)`. -/
theorem loadSegment_ok (E : ElfDecls) (hE : E.wf) (m0 m : Machine) (fuel i : Nat)
    (hr : Ready m) (hd : m.disk = m0.disk) (hs : ScratchLoaded m0 m)
    (ht : tableInPage E m0) (hi : i < hdrField m0 E.elfhdr_phnum)
    (hok : (imageProghdr E m0 i).ok)
    (hf : nsect (imageProghdr E m0 i).filesz (imageProghdr E m0 i).off ≤ fuel) :
    ∃ m', loadSegment E fuel (ELF + (hdrField m0 E.elfhdr_phoff + E.proghdr_size * i)) m
        = some m' ∧
      m'.status = m.status ∧ m'.disk = m.disk ∧ ScratchLoaded m0 m' ∧
      (∀ a, m'.mem a =
        if (imageProghdr E m0 i).filesz < (imageProghdr E m0 i).memsz ∧
            (imageProghdr E m0 i).paddr + (imageProghdr E m0 i).filesz ≤ a ∧
            a < (imageProghdr E m0 i).paddr + (imageProghdr E m0 i).memsz then 0
        else if (imageProghdr E m0 i).paddr - (imageProghdr E m0 i).off % 512 ≤ a ∧
            a < (imageProghdr E m0 i).paddr - (imageProghdr E m0 i).off % 512
              + 512 * nsect (imageProghdr E m0 i).filesz (imageProghdr E m0 i).off then
          image m0 ((imageProghdr E m0 i).off - (imageProghdr E m0 i).off % 512
            + (a - ((imageProghdr E m0 i).paddr - (imageProghdr E m0 i).off % 512)))
        else m.mem a) ∧
      ∃ ev, m'.trace = m.trace ++ ev ∧ milestones ev = segEvents (imageProghdr E m0 i) := by
  obtain ⟨_, _, _, _, hsz, hfo, hfp, hff, hfm⟩ := hE
  have hmul : E.proghdr_size * (i + 1) ≤ E.proghdr_size * hdrField m0 E.elfhdr_phnum :=
    Nat.mul_le_mul_left _ hi
  have hmul' : E.proghdr_size * (i + 1) = E.proghdr_size * i + E.proghdr_size := by ring
  unfold tableInPage at ht
  generalize hbase : hdrField m0 E.elfhdr_phoff + E.proghdr_size * i = base at *
  have hb : base + E.proghdr_size ≤ 4096 := by omega
  -- the members of the header, read from the scratch page
  have rd : ∀ (m1 : Machine), ScratchLoaded m0 m1 → ∀ f : Field, f.off + f.size ≤ E.proghdr_size →
      rdField m1.mem (ELF + base) f = rdField (image m0) base f :=
    fun m1 h1 f hf1 => rdField_scratch m0 m1 h1 base f (by omega)
  have hp : imageProghdr E m0 i = ⟨rdField (image m0) base E.proghdr_off,
      rdField (image m0) base E.proghdr_paddr, rdField (image m0) base E.proghdr_filesz,
      rdField (image m0) base E.proghdr_memsz⟩ := by
    simp only [imageProghdr, hbase]
  generalize imageProghdr E m0 i = p at *
  subst hp
  simp only [Proghdr.ok] at hok
  simp only at hf ⊢
  generalize hoff : rdField (image m0) base E.proghdr_off = off at *
  generalize hpa : rdField (image m0) base E.proghdr_paddr = pa at *
  generalize hfs : rdField (image m0) base E.proghdr_filesz = filesz at *
  generalize hms : rdField (image m0) base E.proghdr_memsz = memsz at *
  have hoff32 : off < 2 ^ 32 := hoff ▸ rdField_lt _ _ _
  obtain ⟨hk1, hk2, hk3, hk4⟩ := hok
  have hn : nsect filesz off = (off % 512 + filesz + 511) / 512 := rfl
  obtain ⟨m1, hm1, hst1, hd1, hmem1, ev1, htr1, hev1⟩ :=
    readseg_ready fuel pa filesz off m hr hoff32 hk1 hk2 hf
  have hs1 : ScratchLoaded m0 m1 := by
    intro a h1 h2
    rw [hmem1 a, if_neg (by omega)]
    exact hs a h1 h2
  have himg : image m = image m0 := by funext j; simp only [image, hd]
  simp only [loadSegment, rd m hs _ hfp, rd m hs _ hff, rd m hs _ hfo, hpa, hfs, hoff, hm1,
    Option.some_bind, rd m1 hs1 _ hfm, rd m1 hs1 _ hff, hms, gt_iff_lt]
  have hms32 : memsz < 2 ^ 32 := hms ▸ rdField_lt _ _ _
  by_cases hz : filesz < memsz
  · have hsub : (memsz + 2 ^ 32 - filesz) % 2 ^ 32 = memsz - filesz := by omega
    rw [if_pos hz, hsub]
    have hk3' := hk3 hz
    refine ⟨_, rfl, hst1, hd1, ?_, ?_, ?_⟩
    · intro a h1 h2
      simp only [stosb]
      rw [Nat.mod_eq_of_lt (by omega : pa + filesz < 2 ^ 32)]
      have hwin := adist_window (pa + filesz) a (memsz - filesz) (by omega)
      rw [if_neg (fun hh => by have := hwin.mp hh; omega)]
      exact hs1 a h1 h2
    · intro a
      simp only [stosb]
      rw [Nat.mod_eq_of_lt (by omega : pa + filesz < 2 ^ 32)]
      have hwin := adist_window (pa + filesz) a (memsz - filesz) (by omega)
      by_cases c : a < 2 ^ 32 ∧ adist (pa + filesz) a < memsz - filesz
      · rw [if_pos c, if_pos ⟨hz, by have := hwin.mp c; omega⟩]
        rfl
      · rw [if_neg c, if_neg (fun hh => c (hwin.mpr (by omega))), hmem1 a, himg]
    · refine ⟨ev1 ++ [Event.stosb (pa + filesz) 0 (memsz - filesz)], ?_, ?_⟩
      · simp only [stosb, htr1, List.append_assoc]
        rw [Nat.mod_eq_of_lt (by omega : pa + filesz < 2 ^ 32)]
      · rw [milestones_append, hev1]
        simp only [segEvents, if_pos hz]
        rfl
  · rw [if_neg hz]
    refine ⟨_, rfl, hst1, hd1, hs1, ?_, ev1, htr1, ?_⟩
    · intro a
      rw [if_neg (fun hh => hz hh.1), hmem1 a, himg]
    · rw [hev1]
      simp only [segEvents, if_neg hz, List.append_nil]
/-! ### The program-header loop -/

theorem phLoop_done (E : ElfDecls) (eph fuel ph : Nat) (m : Machine) (h : eph ≤ ph) :
    phLoop E eph fuel ph m = some m := by
  cases fuel <;> simp only [phLoop] <;> rw [if_neg (by omega)]

theorem nsect_le (count offset : Nat) (h : count < 2 ^ 32) : nsect count offset ≤ 2 ^ 23 + 1 := by
  have hn : nsect count offset = (offset % 512 + count + 511) / 512 := rfl
  omega

theorem phLoop_step (E : ElfDecls) (hE : E.wf) (m0 m : Machine) (fuel i : Nat)
    (ht : tableInPage E m0) (hi : i < hdrField m0 E.elfhdr_phnum) :
    phLoop E (ELF + (hdrField m0 E.elfhdr_phoff
          + E.proghdr_size * hdrField m0 E.elfhdr_phnum)) (fuel + 1)
        (ELF + (hdrField m0 E.elfhdr_phoff + E.proghdr_size * i)) m
      = (loadSegment E (fuel + 1) (ELF + (hdrField m0 E.elfhdr_phoff + E.proghdr_size * i))
          m).bind
        (phLoop E (ELF + (hdrField m0 E.elfhdr_phoff
          + E.proghdr_size * hdrField m0 E.elfhdr_phnum)) fuel
          (ELF + (hdrField m0 E.elfhdr_phoff + E.proghdr_size * (i + 1)))) := by
  obtain ⟨_, _, _, _, hsz, -⟩ := hE
  have hmul : E.proghdr_size * (i + 1) ≤ E.proghdr_size * hdrField m0 E.elfhdr_phnum :=
    Nat.mul_le_mul_left _ hi
  have hmul' : E.proghdr_size * (i + 1) = E.proghdr_size * i + E.proghdr_size := by ring
  unfold tableInPage at ht
  simp only [phLoop, ELF] at *
  rw [if_pos (by omega)]
  have e : (0x10000 + (hdrField m0 E.elfhdr_phoff + E.proghdr_size * i) + E.proghdr_size)
      % 2 ^ 32 = 0x10000 + (hdrField m0 E.elfhdr_phoff + E.proghdr_size * (i + 1)) := by
    rw [Nat.mod_eq_of_lt (by omega)]; omega
  rw [e]

/-- With the first page of the image in the scratch page and an always-ready
disk, the loop over the remaining `k` program headers `i, i + 1, ...` of a
table inside that page returns after loading them in table order. -/
theorem phLoop_ok (E : ElfDecls) (hE : E.wf) (m0 : Machine) (ht : tableInPage E m0)
    (hok : ∀ i, i < hdrField m0 E.elfhdr_phnum → (imageProghdr E m0 i).ok) :
    ∀ (k i fuel : Nat) (m : Machine), i + k = hdrField m0 E.elfhdr_phnum → Ready m →
      m.disk = m0.disk → ScratchLoaded m0 m → k + 2 ^ 23 + 1 ≤ fuel →
      ∃ m', phLoop E (ELF + (hdrField m0 E.elfhdr_phoff
              + E.proghdr_size * hdrField m0 E.elfhdr_phnum)) fuel
            (ELF + (hdrField m0 E.elfhdr_phoff + E.proghdr_size * i)) m = some m' ∧
        m'.status = m.status ∧ m'.disk = m.disk ∧ ScratchLoaded m0 m' ∧
        ∃ ev, m'.trace = m.trace ++ ev ∧ milestones ev = phEvents E m0 i k := by
  intro k
  induction k with
  | zero =>
    intro i fuel m hik _ _ hs _
    refine ⟨m, ?_, rfl, rfl, hs, [], by simp, by simp [milestones, phEvents]⟩
    apply phLoop_done
    rw [← hik]; simp
  | succ k ih =>
    intro i fuel m hik hr hd hs hf
    obtain ⟨fuel, rfl⟩ : ∃ f, fuel = f + 1 := ⟨fuel - 1, by omega⟩
    have hi : i < hdrField m0 E.elfhdr_phnum := by omega
    have hfs : (imageProghdr E m0 i).filesz < 2 ^ 32 := rdField_lt _ _ _
    have hns := nsect_le (imageProghdr E m0 i).filesz (imageProghdr E m0 i).off hfs
    obtain ⟨m1, hm1, hst1, hd1, hs1, -, ev1, htr1, hev1⟩ :=
      loadSegment_ok E hE m0 m (fuel + 1) i hr hd hs ht hi (hok i hi) (by omega)
    have hr1 : Ready m1 := by intro j; rw [hst1]; exact hr j
    obtain ⟨m2, hm2, hst2, hd2, hs2, ev2, htr2, hev2⟩ :=
      ih (i + 1) fuel m1 (by omega) hr1 (by rw [hd1, hd]) hs1 (by omega)
    refine ⟨m2, ?_, by rw [hst2, hst1], by rw [hd2, hd1], hs2, ev1 ++ ev2, ?_, ?_⟩
    · rw [phLoop_step E hE m0 m fuel i ht hi, hm1]
      exact hm2
    · rw [htr2, htr1, List.append_assoc]
    · rw [milestones_append, hev1, hev2]
      rfl

/-! ### The header read of `bootmain` -/

theorem nsect_header : nsect 4096 0 = 8 := by decide

/-- The initial `readseg(elf, 4096, 0)`: on an always-ready disk it returns
with the first page of the image in the scratch page, sectors 1 to 8 read, and
no other memory changed. -/
theorem header_read (fuel : Nat) (m : Machine) (hr : Ready m) (hf : 8 ≤ fuel) :
    ∃ m1, readseg fuel ELF 4096 0 m = some m1 ∧ m1.status = m.status ∧ m1.disk = m.disk ∧
      ScratchLoaded m m1 ∧ (∀ a, (a < 0x10000 ∨ 0x11000 ≤ a) → m1.mem a = m.mem a) ∧
      ∃ ev, m1.trace = m.trace ++ ev ∧ milestones ev = segCalls ELF 4096 0 := by
  obtain ⟨m1, hm1, hst1, hd1, hmem1, ev1, htr1, hev1⟩ :=
    readseg_ready fuel ELF 4096 0 m hr (by decide) (by decide) (by decide)
      (by rw [nsect_header]; exact hf)
  rw [nsect_header] at hmem1
  simp only [ELF] at hmem1
  refine ⟨m1, hm1, hst1, hd1, ?_, ?_, ev1, htr1, hev1⟩
  · intro a h1 h2
    rw [hmem1 a, if_pos (by omega)]
    simp
  · intro a ha
    rw [hmem1 a, if_neg (by omega)]

theorem sectorsRead_header : sectorsRead (segCalls ELF 4096 0) = [1, 2, 3, 4, 5, 6, 7, 8] := by
  decide

theorem hdr_scratch (m0 m : Machine) (hs : ScratchLoaded m0 m) (f : Field)
    (h : f.off + f.size ≤ 4096) : rdField m.mem ELF f = hdrField m0 f :=
  rdField_scratch m0 m hs 0 f (by omega)
/-! ### `bootmain` -/

/-- With a correct magic number and the program-header table inside the first
page, `bootmain` is the header read followed by the program-header loop over
the table in the scratch page and the call of the entry point. -/
theorem bootmain_good_magic (E : ElfDecls) (hE : E.wf) (fuel : Nat) (m : Machine)
    (hr : Ready m) (hf : 8 ≤ fuel) (hmagic : hdrField m E.elfhdr_magic = E.ELF_MAGIC)
    (ht : tableInPage E m) :
    ∃ m1, m1.status = m.status ∧ m1.disk = m.disk ∧ ScratchLoaded m m1 ∧
      (∀ a, (a < 0x10000 ∨ 0x11000 ≤ a) → m1.mem a = m.mem a) ∧
      (∃ ev, m1.trace = m.trace ++ ev ∧ milestones ev = segCalls ELF 4096 0) ∧
      bootmain E fuel m =
        (phLoop E (ELF + (hdrField m E.elfhdr_phoff
            + E.proghdr_size * hdrField m E.elfhdr_phnum)) fuel
          (ELF + (hdrField m E.elfhdr_phoff + E.proghdr_size * 0)) m1).bind fun m2 =>
            some (callEntry (rdField m2.mem ELF E.elfhdr_entry) m2) := by
  obtain ⟨m1, hm1, hst1, hd1, hs1, hfr1, hev1⟩ := header_read fuel m hr hf
  refine ⟨m1, hst1, hd1, hs1, hfr1, hev1, ?_⟩
  obtain ⟨h1, h2, h3, h4, -⟩ := hE
  unfold tableInPage at ht
  simp only [bootmain, hm1, Option.some_bind, hdr_scratch m m1 hs1 _ h1,
    hdr_scratch m m1 hs1 _ h3, hdr_scratch m m1 hs1 _ h4, hmagic, ne_eq, not_true_eq_false,
    if_false, Nat.mul_zero, Nat.add_zero]
  have e1 : (ELF + hdrField m E.elfhdr_phoff) % 2 ^ 32 = ELF + hdrField m E.elfhdr_phoff := by
    apply Nat.mod_eq_of_lt; simp only [ELF]; omega
  have e2 : (ELF + hdrField m E.elfhdr_phoff + E.proghdr_size * hdrField m E.elfhdr_phnum)
      % 2 ^ 32 = ELF + (hdrField m E.elfhdr_phoff
        + E.proghdr_size * hdrField m E.elfhdr_phnum) := by
    rw [Nat.add_assoc]; apply Nat.mod_eq_of_lt; simp only [ELF]; omega
  rw [e1, e2]

/-- C6: when the `magic` member of the image's ELF header (a member lying in
the first page of the image) is not `ELF_MAGIC`,
`bootmain` (with an always-ready disk) returns without calling any entry
point; all it did is the header read: it read exactly sectors 1 to 8, made no
zero fill, and changed no memory outside the scratch page
`[0x10000, 0x11000)`. -/
theorem bootmain_bad_magic (E : ElfDecls) (fuel : Nat) (m : Machine)
    (hE : E.elfhdr_magic.off + E.elfhdr_magic.size ≤ 4096)
    (hr : Ready m) (hf : 8 ≤ fuel) (hmagic : hdrField m E.elfhdr_magic ≠ E.ELF_MAGIC) :
    ∃ m', bootmain E fuel m = some m' ∧
      (∃ ev, m'.trace = m.trace ++ ev ∧ entryCalls ev = [] ∧
        sectorsRead ev = [1, 2, 3, 4, 5, 6, 7, 8] ∧ milestones ev = segCalls ELF 4096 0) ∧
      ∀ a, (a < 0x10000 ∨ 0x11000 ≤ a) → m'.mem a = m.mem a := by
  obtain ⟨m1, hm1, -, -, hs1, hfr1, ev, htr, hev⟩ := header_read fuel m hr hf
  refine ⟨m1, ?_, ⟨ev, htr, ?_, ?_, hev⟩, hfr1⟩
  · simp only [bootmain, hm1, Option.some_bind, hdr_scratch m m1 hs1 _ hE, ne_eq, hmagic,
      not_false_eq_true, if_true]
  · rw [← entryCalls_milestones, hev]; decide
  · rw [← sectorsRead_milestones, hev, sectorsRead_header]

/-- C6 witness: a disk of zeros does not start with the ELF magic number. -/
theorem bootmain_bad_magic_witness :
    elf32.elfhdr_magic.off + elf32.elfhdr_magic.size ≤ 4096 ∧
      Ready (bootMachine fun _ => 0) ∧ 8 ≤ 8 ∧
      hdrField (bootMachine fun _ => 0) elf32.elfhdr_magic ≠ elf32.ELF_MAGIC ∧
      ∃ m', bootmain elf32 8 (bootMachine fun _ => 0) = some m' ∧
        (∃ ev, m'.trace = (bootMachine fun _ => 0).trace ++ ev ∧ entryCalls ev = [] ∧
          sectorsRead ev = [1, 2, 3, 4, 5, 6, 7, 8] ∧
          milestones ev = segCalls ELF 4096 0) ∧
        ∀ a, (a < 0x10000 ∨ 0x11000 ≤ a) → m'.mem a = (bootMachine fun _ => 0).mem a :=
  ⟨by decide, bootMachine_ready _, by decide, by decide,
    bootmain_bad_magic elf32 8 _ (by decide) (bootMachine_ready _) (by decide) (by decide)⟩

/-- C5: for an image with a correct magic number and exactly one program
header, with `filesz < memsz`, its table inside the first page and its load
wrapping no address and staying off the scratch page, `bootmain` (with an
always-ready disk) reaches the entry call with `mem[paddr + i]` equal to image
byte `off + i` for `i < filesz` and to zero for `filesz <= i < memsz`. -/
theorem bootmain_loads_segment (E : ElfDecls) (hE : E.wf) (fuel : Nat) (m : Machine)
    (hr : Ready m) (hf : 2 ^ 24 ≤ fuel) (hmagic : hdrField m E.elfhdr_magic = E.ELF_MAGIC)
    (hnum : hdrField m E.elfhdr_phnum = 1) (ht : tableInPage E m)
    (hz : (imageProghdr E m 0).filesz < (imageProghdr E m 0).memsz)
    (hok : (imageProghdr E m 0).ok) :
    ∃ m', bootmain E fuel m = some m' ∧
      m'.trace.getLast? = some (Event.entry (hdrField m E.elfhdr_entry)) ∧
      (∀ i, i < (imageProghdr E m 0).filesz →
        m'.mem ((imageProghdr E m 0).paddr + i) = image m ((imageProghdr E m 0).off + i)) ∧
      (∀ i, (imageProghdr E m 0).filesz ≤ i → i < (imageProghdr E m 0).memsz →
        m'.mem ((imageProghdr E m 0).paddr + i) = 0) := by
  obtain ⟨m1, hst1, hd1, hs1, -, -, hboot⟩ :=
    bootmain_good_magic E hE fuel m hr (by omega) hmagic ht
  obtain ⟨fuel, rfl⟩ : ∃ f, fuel = f + 1 := ⟨fuel - 1, by omega⟩
  have hr1 : Ready m1 := by intro j; rw [hst1]; exact hr j
  have hfs : (imageProghdr E m 0).filesz < 2 ^ 32 := rdField_lt _ _ _
  have hns := nsect_le (imageProghdr E m 0).filesz (imageProghdr E m 0).off hfs
  obtain ⟨m2, hm2, -, -, hs2, hmem2, -⟩ :=
    loadSegment_ok E hE m m1 (fuel + 1) 0 hr1 hd1 hs1 ht (by omega) hok (by omega)
  have hdone := phLoop_done E (ELF + (hdrField m E.elfhdr_phoff
      + E.proghdr_size * hdrField m E.elfhdr_phnum)) fuel
    (ELF + (hdrField m E.elfhdr_phoff + E.proghdr_size * (0 + 1))) m2
    (by rw [hnum])
  rw [phLoop_step E hE m m1 fuel 0 ht (by omega), hm2, Option.some_bind, hdone,
    Option.some_bind, hdr_scratch m m2 hs2 _ hE.2.1] at hboot
  refine ⟨_, hboot, by simp [callEntry], ?_, ?_⟩
  · intro i hi
    have hn : nsect (imageProghdr E m 0).filesz (imageProghdr E m 0).off
        = ((imageProghdr E m 0).off % 512 + (imageProghdr E m 0).filesz + 511) / 512 := rfl
    obtain ⟨hk1, -⟩ := hok
    show m2.mem _ = _
    rw [hmem2, if_neg (by omega), if_pos (by omega)]
    have e : (imageProghdr E m 0).off - (imageProghdr E m 0).off % 512
        + ((imageProghdr E m 0).paddr + i
          - ((imageProghdr E m 0).paddr - (imageProghdr E m 0).off % 512))
        = (imageProghdr E m 0).off + i := by omega
    rw [e]
  · intro i h1 h2
    show m2.mem _ = _
    rw [hmem2, if_pos ⟨hz, by omega, by omega⟩]
/-- C5 witness: the one-segment image. -/
theorem bootmain_loads_segment_witness :
    elf32.wf ∧ Ready (bootMachine oneSegmentDisk) ∧ 2 ^ 24 ≤ 2 ^ 24 ∧
      hdrField (bootMachine oneSegmentDisk) elf32.elfhdr_magic = elf32.ELF_MAGIC ∧
      hdrField (bootMachine oneSegmentDisk) elf32.elfhdr_phnum = 1 ∧
      tableInPage elf32 (bootMachine oneSegmentDisk) ∧
      (imageProghdr elf32 (bootMachine oneSegmentDisk) 0).filesz
        < (imageProghdr elf32 (bootMachine oneSegmentDisk) 0).memsz ∧
      (imageProghdr elf32 (bootMachine oneSegmentDisk) 0).ok ∧
      ∃ m', bootmain elf32 (2 ^ 24) (bootMachine oneSegmentDisk) = some m' ∧
        m'.trace.getLast?
          = some (Event.entry (hdrField (bootMachine oneSegmentDisk) elf32.elfhdr_entry)) ∧
        (∀ i, i < (imageProghdr elf32 (bootMachine oneSegmentDisk) 0).filesz →
          m'.mem ((imageProghdr elf32 (bootMachine oneSegmentDisk) 0).paddr + i)
            = image (bootMachine oneSegmentDisk)
                ((imageProghdr elf32 (bootMachine oneSegmentDisk) 0).off + i)) ∧
        (∀ i, (imageProghdr elf32 (bootMachine oneSegmentDisk) 0).filesz ≤ i →
          i < (imageProghdr elf32 (bootMachine oneSegmentDisk) 0).memsz →
          m'.mem ((imageProghdr elf32 (bootMachine oneSegmentDisk) 0).paddr + i) = 0) :=
  ⟨by decide, bootMachine_ready _, by decide, by decide, by decide, by decide, by decide,
    by decide,
    bootmain_loads_segment elf32 (by decide) (2 ^ 24) _ (bootMachine_ready _) (by decide)
      (by decide) (by decide) (by decide) (by decide) (by decide)⟩

theorem entryCalls_segCalls (pa count offset : Nat) :
    entryCalls (segCalls pa count offset) = [] := by
  unfold segCalls
  induction nsect count offset with
  | zero => rfl
  | succ n ih =>
    rw [List.range_succ, List.map_append, entryCalls_append, ih]
    rfl

theorem entryCalls_phEvents (E : ElfDecls) (m : Machine) :
    ∀ (k i : Nat), entryCalls (phEvents E m i k) = [] := by
  intro k
  induction k with
  | zero => intro i; rfl
  | succ k ih =>
    intro i
    simp only [phEvents, segEvents, entryCalls_append, entryCalls_segCalls, ih]
    split <;> rfl

/-- When, in addition, no segment load wraps an address, the milestones of
`bootmain` are known exactly: the header read, then the sector reads and the
zero fill of each program header in table order, then the entry call. -/
theorem bootmain_milestones (E : ElfDecls) (hE : E.wf) (fuel : Nat) (m : Machine)
    (hr : Ready m) (hf : 2 ^ 24 ≤ fuel) (hmagic : hdrField m E.elfhdr_magic = E.ELF_MAGIC)
    (ht : tableInPage E m)
    (hok : ∀ i, i < hdrField m E.elfhdr_phnum → (imageProghdr E m i).ok) :
    ∃ m', bootmain E fuel m = some m' ∧
      ∃ ev, m'.trace = m.trace ++ ev ∧
        milestones ev = segCalls ELF 4096 0 ++ phEvents E m 0 (hdrField m E.elfhdr_phnum)
          ++ [Event.entry (hdrField m E.elfhdr_entry)] ∧
        entryCalls ev = [hdrField m E.elfhdr_entry] ∧
        ev.getLast? = some (Event.entry (hdrField m E.elfhdr_entry)) := by
  obtain ⟨m1, hst1, hd1, hs1, -, ⟨ev1, htr1, hev1⟩, hboot⟩ :=
    bootmain_good_magic E hE fuel m hr (by omega) hmagic ht
  have hr1 : Ready m1 := by intro j; rw [hst1]; exact hr j
  have hnum : hdrField m E.elfhdr_phnum ≤ 4096 := by
    have h5 := hE.2.2.2.2.1
    unfold tableInPage at ht
    have : hdrField m E.elfhdr_phnum ≤ E.proghdr_size * hdrField m E.elfhdr_phnum :=
      Nat.le_mul_of_pos_left _ h5
    omega
  obtain ⟨m2, hm2, -, -, hs2, ev2, htr2, hev2⟩ :=
    phLoop_ok E hE m ht hok (hdrField m E.elfhdr_phnum) 0 fuel m1 (by omega) hr1 hd1 hs1
      (by omega)
  rw [hm2, Option.some_bind, hdr_scratch m m2 hs2 _ hE.2.1] at hboot
  have hms : milestones (ev1 ++ ev2 ++ [Event.entry (hdrField m E.elfhdr_entry)])
      = segCalls ELF 4096 0 ++ phEvents E m 0 (hdrField m E.elfhdr_phnum)
        ++ [Event.entry (hdrField m E.elfhdr_entry)] := by
    rw [milestones_append, milestones_append, hev1, hev2]
    rfl
  refine ⟨_, hboot, ev1 ++ ev2 ++ [Event.entry (hdrField m E.elfhdr_entry)], ?_, hms, ?_, ?_⟩
  · simp only [callEntry, htr2, htr1, List.append_assoc]
  · rw [← entryCalls_milestones, hms, entryCalls_append, entryCalls_append,
      entryCalls_segCalls, entryCalls_phEvents]
    rfl
  · simp

set_option maxRecDepth 100000 in
/-- C8 fails on the code: the two-segment image has a correct magic number and
two program headers in strictly increasing address order with disjoint ranges
`[0x100000, 0x100280)` and `[0x100300, 0x100320)`, off the scratch page and
without wraparound.  Address `0x100200` lies in the zero-fill part
`[0x100010, 0x100280)` of segment 0, but once `bootmain` has processed both
headers it holds `0xAA`: loading segment 1 rounds `pa` down by
`off % 512 = 0x100` and reads sector 10 over `[0x100200, 0x100400)`. -/
theorem bootmain_clobbers_lower_segment :
    hdrField (bootMachine twoSegmentDisk) elf32.elfhdr_magic = elf32.ELF_MAGIC ∧
      hdrField (bootMachine twoSegmentDisk) elf32.elfhdr_phnum = 2 ∧
      tableInPage elf32 (bootMachine twoSegmentDisk) ∧
      (imageProghdr elf32 (bootMachine twoSegmentDisk) 0).ok ∧
      (imageProghdr elf32 (bootMachine twoSegmentDisk) 1).ok ∧
      (imageProghdr elf32 (bootMachine twoSegmentDisk) 0).paddr = 0x100000 ∧
      (imageProghdr elf32 (bootMachine twoSegmentDisk) 0).filesz = 0x10 ∧
      (imageProghdr elf32 (bootMachine twoSegmentDisk) 0).memsz = 0x280 ∧
      (imageProghdr elf32 (bootMachine twoSegmentDisk) 1).paddr = 0x100300 ∧
      (imageProghdr elf32 (bootMachine twoSegmentDisk) 1).filesz = 0x20 ∧
      (imageProghdr elf32 (bootMachine twoSegmentDisk) 1).memsz = 0x20 ∧
      (bootmain elf32 20 (bootMachine twoSegmentDisk)).map (fun m => m.mem 0x100200)
        = some 0xAA ∧
      (bootmain elf32 20 (bootMachine twoSegmentDisk)).map (fun m => milestones m.trace)
        = some (segCalls ELF 4096 0 ++ [Event.readsect 0x100000 9,
            Event.stosb 0x100010 0 0x270, Event.readsect 0x100200 10, Event.entry 0]) := by
  decide

/-! ### `SEG_ASM` -/

theorem and_65535 (a : Nat) : a &&& 0xffff = a % 65536 := by
  have := Nat.and_pow_two_sub_one_eq_mod a 16
  simpa using this

theorem or_144_of_lt (t : Nat) (h : t < 16) : 0x90 ||| t = 144 + t := by
  interval_cases t <;> rfl

theorem or_192_of_lt (t : Nat) (h : t < 16) : 0xC0 ||| t = 192 + t := by
  interval_cases t <;> rfl

/-- The eight bytes of `SEG_ASM(type, base, lim)` in arithmetic form. -/
theorem SEG_ASM_bytes (type base lim : Nat) (ht : type < 16) :
    SEG_ASM type base lim =
      [lim / 2 ^ 12 % 256, lim / 2 ^ 20 % 256, base % 256, base / 2 ^ 8 % 256,
        base / 2 ^ 16 % 256, 144 + type, 192 + lim / 2 ^ 28 % 16, base / 2 ^ 24 % 256] := by
  simp only [SEG_ASM, dotWord, dotByte, and_65535, and_255, and_15, Nat.shiftRight_eq_div_pow,
    or_144_of_lt type ht, or_192_of_lt _ (Nat.mod_lt _ (by decide : 0 < 16)),
    List.cons_append, List.nil_append, List.cons.injEq, and_true]
  refine ⟨?_, ?_, ?_, ?_, ?_, ?_, ?_, ?_⟩ <;> omega

/-- C11: for a 4-bit `type`, `SEG_ASM(type, base, lim)` emits exactly 8
bytes: the 16-bit word `(lim >> 12) & 0xFFFF` and the 16-bit word
`base & 0xFFFF`, each low byte first, then `(base >> 16) & 0xFF`,
`0x90 | type`, `0xC0 | ((lim >> 28) & 0xF)` and `(base >> 24) & 0xFF`; and
`SEG_ASM(STA_X|STA_R, 0, 0xFFFFFFFF)` is `FF FF 00 00 00 9A CF 00`. -/
theorem SEG_ASM_layout (type base lim : Nat) (ht : type < 16) :
    (SEG_ASM type base lim).length = 8 ∧
    SEG_ASM type base lim =
      [((lim >>> 12) &&& 0xFFFF) % 256, ((lim >>> 12) &&& 0xFFFF) / 256,
        (base &&& 0xFFFF) % 256, (base &&& 0xFFFF) / 256,
        (base >>> 16) &&& 0xFF, 0x90 ||| type, 0xC0 ||| ((lim >>> 28) &&& 0xF),
        (base >>> 24) &&& 0xFF] ∧
    STA_X ||| STA_R = 0xA ∧
    SEG_ASM (STA_X ||| STA_R) 0 0xFFFFFFFF = [0xFF, 0xFF, 0x00, 0x00, 0x00, 0x9A, 0xCF, 0x00] := by
  refine ⟨by simp [SEG_ASM, dotWord, dotByte], ?_, by decide, by decide⟩
  rw [SEG_ASM_bytes type base lim ht]
  simp only [and_65535, and_255, and_15, Nat.shiftRight_eq_div_pow,
    or_144_of_lt type ht, or_192_of_lt _ (Nat.mod_lt _ (by decide : 0 < 16)),
    List.cons.injEq, and_true]
  refine ⟨?_, ?_, ?_, ?_⟩ <;> omega

/-- C11 witness: a data segment with base `0x12345678` and limit `0xABCDEFFF`. -/
theorem SEG_ASM_layout_witness :
    STA_W < 16 ∧
    (SEG_ASM STA_W 0x12345678 0xABCDEFFF).length = 8 ∧
    SEG_ASM STA_W 0x12345678 0xABCDEFFF =
      [((0xABCDEFFF >>> 12) &&& 0xFFFF) % 256, ((0xABCDEFFF >>> 12) &&& 0xFFFF) / 256,
        (0x12345678 &&& 0xFFFF) % 256, (0x12345678 &&& 0xFFFF) / 256,
        (0x12345678 >>> 16) &&& 0xFF, 0x90 ||| STA_W, 0xC0 ||| ((0xABCDEFFF >>> 28) &&& 0xF),
        (0x12345678 >>> 24) &&& 0xFF] ∧
    STA_X ||| STA_R = 0xA ∧
    SEG_ASM (STA_X ||| STA_R) 0 0xFFFFFFFF = [0xFF, 0xFF, 0x00, 0x00, 0x00, 0x9A, 0xCF, 0x00] :=
  ⟨by decide, SEG_ASM_layout STA_W 0x12345678 0xABCDEFFF (by decide)⟩
theorem or_shiftLeft_of_lt (a b i : Nat) (h : a < 2 ^ i) : a ||| (b <<< i) = a + 2 ^ i * b := by
  rw [Nat.shiftLeft_eq, Nat.or_comm, Nat.mul_comm, ← Nat.mul_add_lt_is_or h, Nat.add_comm]

/-- C15: for a 4-bit `type` and 32-bit `base` and `lim`, decoding the 8 bytes
of `SEG_ASM(type, base, lim)` gives back `base`, `lim >> 12` and `type`; and
two 32-bit limits are encoded by the same bytes exactly when they agree on
bits 12..31. -/
theorem SEG_ASM_roundtrip (type base lim : Nat) (ht : type < 16) (hb : base < 2 ^ 32)
    (hl : lim < 2 ^ 32) :
    descBase (SEG_ASM type base lim) = base ∧
    descLimit (SEG_ASM type base lim) = lim >>> 12 ∧
    descType (SEG_ASM type base lim) = type ∧
    ∀ lim', lim' < 2 ^ 32 →
      (SEG_ASM type base lim = SEG_ASM type base lim' ↔ lim >>> 12 = lim' >>> 12) := by
  refine ⟨?_, ?_, ?_, ?_⟩
  · rw [SEG_ASM_bytes type base lim ht]
    simp only [descBase, List.getD_cons_succ, List.getD_cons_zero]
    rw [or_shiftLeft_of_lt _ _ 16 (by omega), or_shiftLeft_of_lt _ _ 24 (by omega)]
    omega
  · rw [SEG_ASM_bytes type base lim ht]
    simp only [descLimit, List.getD_cons_succ, List.getD_cons_zero, and_15,
      Nat.shiftRight_eq_div_pow]
    rw [or_shiftLeft_of_lt _ _ 16 (by omega)]
    omega
  · rw [SEG_ASM_bytes type base lim ht]
    simp only [descType, List.getD_cons_succ, List.getD_cons_zero, and_15]
    omega
  · intro lim' hl'
    rw [SEG_ASM_bytes type base lim ht, SEG_ASM_bytes type base lim' ht]
    simp only [List.cons.injEq, and_true, true_and, Nat.shiftRight_eq_div_pow]
    constructor
    · rintro ⟨h1, h2, h3⟩
      omega
    · intro h
      refine ⟨?_, ?_, ?_⟩ <;> omega

/-- C15 witness: the descriptor of a data segment. -/
theorem SEG_ASM_roundtrip_witness :
    STA_W < 16 ∧ 0x12345678 < 2 ^ 32 ∧ 0xABCDEFFF < 2 ^ 32 ∧
    descBase (SEG_ASM STA_W 0x12345678 0xABCDEFFF) = 0x12345678 ∧
    descLimit (SEG_ASM STA_W 0x12345678 0xABCDEFFF) = 0xABCDEFFF >>> 12 ∧
    descType (SEG_ASM STA_W 0x12345678 0xABCDEFFF) = STA_W ∧
    ∀ lim', lim' < 2 ^ 32 →
      (SEG_ASM STA_W 0x12345678 0xABCDEFFF = SEG_ASM STA_W 0x12345678 lim'
        ↔ 0xABCDEFFF >>> 12 = lim' >>> 12) :=
  ⟨by decide, by decide, by decide,
    SEG_ASM_roundtrip STA_W 0x12345678 0xABCDEFFF (by decide) (by decide) (by decide)⟩

/-- C16: for every `type` in 0..15 the access byte `0x90 | type` of
`SEG_ASM(type, base, lim)` has bit 7 set (present), bits 6 and 5 clear
(privilege level 0) and bit 4 set (code or data), the flags byte has bits 7
and 6 set, and the output never equals the all-zero `SEG_NULLASM`. -/
theorem SEG_ASM_not_null (type base lim : Nat) (ht : type < 16) :
    (SEG_ASM type base lim).getD 5 0 = 0x90 ||| type ∧
    (0x90 ||| type).testBit 7 = true ∧ (0x90 ||| type).testBit 6 = false ∧
    (0x90 ||| type).testBit 5 = false ∧ (0x90 ||| type).testBit 4 = true ∧
    ((SEG_ASM type base lim).getD 6 0).testBit 7 = true ∧
    ((SEG_ASM type base lim).getD 6 0).testBit 6 = true ∧
    SEG_NULLASM = [0, 0, 0, 0, 0, 0, 0, 0] ∧
    SEG_ASM type base lim ≠ SEG_NULLASM := by
  have hx : lim / 2 ^ 28 % 16 < 16 := Nat.mod_lt _ (by decide)
  have h6 : (SEG_ASM type base lim).getD 6 0 = 192 + lim / 2 ^ 28 % 16 := by
    rw [SEG_ASM_bytes type base lim ht]; rfl
  refine ⟨?_, ?_, ?_, ?_, ?_, ?_, ?_, by decide, ?_⟩
  · rw [SEG_ASM_bytes type base lim ht, or_144_of_lt type ht]; rfl
  · interval_cases type <;> decide
  · interval_cases type <;> decide
  · interval_cases type <;> decide
  · interval_cases type <;> decide
  · rw [h6]; generalize lim / 2 ^ 28 % 16 = x at hx; interval_cases x <;> decide
  · rw [h6]; generalize lim / 2 ^ 28 % 16 = x at hx; interval_cases x <;> decide
  · intro h
    rw [SEG_ASM_bytes type base lim ht] at h
    have h5 := congrArg (fun d => d.getD 5 0) h
    simp [SEG_NULLASM, dotWord, dotByte] at h5

/-- C16 witness: the kernel code segment. -/
theorem SEG_ASM_not_null_witness :
    STA_X ||| STA_R < 16 ∧
    (SEG_ASM (STA_X ||| STA_R) 0 0xFFFFFFFF).getD 5 0 = 0x90 ||| (STA_X ||| STA_R) ∧
    (0x90 ||| (STA_X ||| STA_R)).testBit 7 = true ∧
    (0x90 ||| (STA_X ||| STA_R)).testBit 6 = false ∧
    (0x90 ||| (STA_X ||| STA_R)).testBit 5 = false ∧
    (0x90 ||| (STA_X ||| STA_R)).testBit 4 = true ∧
    ((SEG_ASM (STA_X ||| STA_R) 0 0xFFFFFFFF).getD 6 0).testBit 7 = true ∧
    ((SEG_ASM (STA_X ||| STA_R) 0 0xFFFFFFFF).getD 6 0).testBit 6 = true ∧
    SEG_NULLASM = [0, 0, 0, 0, 0, 0, 0, 0] ∧
    SEG_ASM (STA_X ||| STA_R) 0 0xFFFFFFFF ≠ SEG_NULLASM :=
  ⟨by decide, SEG_ASM_not_null (STA_X ||| STA_R) 0 0xFFFFFFFF (by decide)⟩

/-! ### `waitdisk`, poll by poll -/

theorem waitdisk_polls (fuel : Nat) : ∀ (n : Nat) (m : Machine),
    (∀ i, i < n → (m.status (m.polls + i) % 256) &&& 0xC0 ≠ 0x40) →
    (m.status (m.polls + n) % 256) &&& 0xC0 = 0x40 →
    (n < fuel → waitdisk fuel m = some { m with
        polls := m.polls + (n + 1)
        trace := m.trace ++ pollEvents m.status m.polls (n + 1) }) ∧
    (fuel ≤ n → waitdisk fuel m = none) := by
  induction fuel with
  | zero => intro n m _ _; exact ⟨fun h => absurd h (Nat.not_lt_zero _), fun _ => rfl⟩
  | succ fuel ih =>
    intro n m hn hr
    cases n with
    | zero =>
      refine ⟨fun _ => ?_, fun h => absurd h (by omega)⟩
      have hr' : (m.status m.polls % 256) &&& 0xC0 = 0x40 := by simpa using hr
      simp [waitdisk, inb, hr', pollEvents, List.range_succ]
    | succ n =>
      have h0 : (m.status m.polls % 256) &&& 0xC0 ≠ 0x40 := by simpa using hn 0 (by omega)
      have step : waitdisk (fuel + 1) m = waitdisk fuel { m with
          polls := m.polls + 1
          trace := m.trace ++ [Event.inb 0x1F7 (m.status m.polls % 256)] } := by
        simp only [waitdisk, inb, if_true]
        rw [if_pos h0]
      obtain ⟨ih1, ih2⟩ := ih n { m with
          polls := m.polls + 1
          trace := m.trace ++ [Event.inb 0x1F7 (m.status m.polls % 256)] }
        (fun i hi => by
          have := hn (i + 1) (by omega)
          simpa [Nat.add_assoc, Nat.add_comm 1 i] using this)
        (by simpa [Nat.add_assoc, Nat.add_comm 1 n] using hr)
      refine ⟨fun h => ?_, fun h => ?_⟩
      · rw [step, ih1 (by omega)]
        simp [pollEvents_succ_front _ m.polls (n + 1), Nat.add_assoc, Nat.add_comm 1]
      · rw [step, ih2 (by omega)]

/-- C14: if the first status byte `s` with `(s & 0xC0) == 0x40` is the one at
index `n` of the stream of reads of port `0x1F7`, then `waitdisk` returns
after exactly `n + 1` reads of that port (given fuel for them), having
changed only the poll count and the log and having written no port; within
`n` reads or fewer, all of them not ready, it has not returned. -/
theorem waitdisk_first_ready (fuel n : Nat) (m : Machine)
    (hn : ∀ i, i < n → (m.status (m.polls + i) % 256) &&& 0xC0 ≠ 0x40)
    (hr : (m.status (m.polls + n) % 256) &&& 0xC0 = 0x40) :
    (n < fuel → waitdisk fuel m = some { m with
        polls := m.polls + (n + 1)
        trace := m.trace ++ pollEvents m.status m.polls (n + 1) }) ∧
    (fuel ≤ n → waitdisk fuel m = none) ∧
    (pollEvents m.status m.polls (n + 1)).length = n + 1 ∧
    (∀ e, e ∈ pollEvents m.status m.polls (n + 1) → ∃ v, e = Event.inb 0x1F7 v) ∧
    allPortWrites (pollEvents m.status m.polls (n + 1)) = [] := by
  obtain ⟨h1, h2⟩ := waitdisk_polls fuel n m hn hr
  refine ⟨h1, h2, by simp [pollEvents], ?_, (pollEvents_proj _ _ _).1⟩
  intro e he
  simp only [pollEvents, List.mem_map] at he
  obtain ⟨i, -, rfl⟩ := he
  exact ⟨_, rfl⟩

/-- C14 witness: the disk is busy for the first two status reads and ready at
the third. -/
theorem waitdisk_first_ready_witness :
    (∀ i, i < 2 →
      (busyTwiceMachine.status (busyTwiceMachine.polls + i) % 256) &&& 0xC0 ≠ 0x40) ∧
    (busyTwiceMachine.status (busyTwiceMachine.polls + 2) % 256) &&& 0xC0 = 0x40 ∧
    (2 < 5 → waitdisk 5 busyTwiceMachine = some { busyTwiceMachine with
        polls := busyTwiceMachine.polls + (2 + 1)
        trace := busyTwiceMachine.trace
          ++ pollEvents busyTwiceMachine.status busyTwiceMachine.polls (2 + 1) }) ∧
    (5 ≤ 2 → waitdisk 5 busyTwiceMachine = none) ∧
    (pollEvents busyTwiceMachine.status busyTwiceMachine.polls (2 + 1)).length = 2 + 1 ∧
    (∀ e, e ∈ pollEvents busyTwiceMachine.status busyTwiceMachine.polls (2 + 1) →
      ∃ v, e = Event.inb 0x1F7 v) ∧
    allPortWrites (pollEvents busyTwiceMachine.status busyTwiceMachine.polls (2 + 1)) = [] :=
  ⟨by decide, by decide, waitdisk_first_ready 5 2 busyTwiceMachine (by decide) (by decide)⟩

/-! ### The calls of `readseg` -/

theorem readsectCalls_milestones (l : List Event) :
    readsectCalls (milestones l) = readsectCalls l := by
  induction l with
  | nil => rfl
  | cons e es ih =>
    cases e <;> simp_all [milestones, readsectCalls, List.filter_cons]

theorem readsectCalls_segCalls (pa count offset : Nat) :
    readsectCalls (segCalls pa count offset)
      = (List.range (nsect count offset)).map fun k =>
          (pa - offset % 512 + 512 * k, offset / 512 + 1 + k) := by
  unfold segCalls
  induction nsect count offset with
  | zero => rfl
  | succ n ih =>
    rw [List.range_succ, List.map_append, List.map_append, readsectCalls_append, ih]
    simp [readsectCalls, SECTSIZE]

/-- C12: with `r = offset % 512`, `pa >= r`, `pa + count + 511 < 2 ^ 32` and an
always-ready disk, `readseg(pa, count, offset)` makes exactly
`n = ceil((r + count) / 512)` calls of `readsect`, the `k`-th being
`readsect(pa - r + 512 k, offset div 512 + 1 + k)`; and `n = 0` exactly when
`count = 0` and `r = 0`. -/
theorem readseg_call_sequence (fuel pa count offset : Nat) (m : Machine) (hr : Ready m)
    (hoff : offset < 2 ^ 32) (hpa : offset % 512 ≤ pa) (hw : pa + count + 511 < 2 ^ 32)
    (hf : nsect count offset ≤ fuel) :
    ∃ m' ev, readseg fuel pa count offset m = some m' ∧ m'.trace = m.trace ++ ev ∧
      readsectCalls ev = (List.range (nsect count offset)).map (fun k =>
        (pa - offset % 512 + 512 * k, offset / 512 + 1 + k)) ∧
      (readsectCalls ev).length = nsect count offset ∧
      offset % 512 + count ≤ 512 * nsect count offset ∧
      512 * nsect count offset < offset % 512 + count + 512 ∧
      (nsect count offset = 0 ↔ count = 0 ∧ offset % 512 = 0) := by
  obtain ⟨m', hm', -, -, -, ev, htr, hms⟩ :=
    readseg_ready fuel pa count offset m hr hoff hpa hw hf
  have hn : nsect count offset = (offset % 512 + count + 511) / 512 := rfl
  have hcalls : readsectCalls ev = (List.range (nsect count offset)).map (fun k =>
      (pa - offset % 512 + 512 * k, offset / 512 + 1 + k)) := by
    rw [← readsectCalls_milestones, hms, readsectCalls_segCalls]
  refine ⟨m', ev, hm', htr, hcalls, ?_, by omega, by omega, by omega⟩
  rw [hcalls, List.length_map, List.length_range]

/-- C12 witness: 600 bytes at image offset 1000 loaded to address `0x100000`. -/
theorem readseg_call_sequence_witness :
    Ready (bootMachine fun _ => 0) ∧ 1000 < 2 ^ 32 ∧ 1000 % 512 ≤ 0x100000 ∧
      0x100000 + 600 + 511 < 2 ^ 32 ∧ nsect 600 1000 ≤ 3 ∧
      ∃ m' ev, readseg 3 0x100000 600 1000 (bootMachine fun _ => 0) = some m' ∧
        m'.trace = (bootMachine fun _ => 0).trace ++ ev ∧
        readsectCalls ev = (List.range (nsect 600 1000)).map (fun k =>
          (0x100000 - 1000 % 512 + 512 * k, 1000 / 512 + 1 + k)) ∧
        (readsectCalls ev).length = nsect 600 1000 ∧
        1000 % 512 + 600 ≤ 512 * nsect 600 1000 ∧
        512 * nsect 600 1000 < 1000 % 512 + 600 + 512 ∧
        (nsect 600 1000 = 0 ↔ 600 = 0 ∧ 1000 % 512 = 0) :=
  ⟨bootMachine_ready _, by decide, by decide, by decide, by decide,
    readseg_call_sequence 3 0x100000 600 1000 _ (bootMachine_ready _) (by decide) (by decide)
      (by decide) (by decide)⟩

/-! ### Termination of the loop of `readseg` -/

theorem readsegLoop_forever (fuel : Nat) : ∀ (pa s : Nat) (m : Machine),
    pa % 512 = 0 → pa < 2 ^ 32 → readsegLoop (2 ^ 32 - 1) fuel pa s m = none := by
  induction fuel with
  | zero =>
    intro pa s m h1 h2
    simp only [readsegLoop]
    rw [if_pos (by omega)]
  | succ fuel ih =>
    intro pa s m h1 h2
    simp only [readsegLoop, SECTSIZE]
    rw [if_pos (by omega)]
    cases readsect (fuel + 1) pa s m with
    | none => rfl
    | some m1 =>
      rw [Option.some_bind]
      exact ih _ _ _ (by omega) (Nat.mod_lt _ (by decide))

/-- C13 (as stated) fails: `pa = 0`, `offset = 0`, `count = 2 ^ 32 - 1` satisfy
`pa >= offset mod 512` and `pa + count < 2 ^ 32`, but the destination pointer,
a multiple of 512, stays below the end `0xFFFFFFFF` and wraps from
`0xFFFFFE00` to 0: with an always-ready disk `readseg` returns for no amount
of fuel. -/
theorem readseg_termination_counterexample :
    (0 % 512 ≤ 0 ∧ 0 + (2 ^ 32 - 1) < 2 ^ 32) ∧
      ∀ fuel, readseg fuel 0 (2 ^ 32 - 1) 0 (bootMachine fun _ => 0) = none := by
  refine ⟨by decide, fun fuel => ?_⟩
  have e1 : (0 + (2 ^ 32 - 1)) % 2 ^ 32 = 2 ^ 32 - 1 := by norm_num
  have e2 : (0 + 2 ^ 32 - 0 % SECTSIZE) % 2 ^ 32 = 0 := by norm_num [SECTSIZE]
  simp only [readseg, e1, e2]
  exact readsegLoop_forever fuel 0 _ _ (by decide) (by decide)

/-- C13 (amended): with `pa >= offset mod 512`, `pa + count < 2 ^ 32` and also
the sector-rounded end `pa - offset mod 512 + 512 * ceil((offset mod 512 +
count) / 512)` below `2 ^ 32` (which `pa + count + 511 < 2 ^ 32` guarantees),
on an always-ready disk the loop of `readseg` terminates: `readseg` returns
after exactly `ceil((offset mod 512 + count) / 512)` sector reads, when the
destination pointer has reached or passed the end `pa + count`. -/
theorem readseg_terminates (fuel pa count offset : Nat) (m : Machine) (hr : Ready m)
    (hoff : offset < 2 ^ 32) (hpa : offset % 512 ≤ pa) (hw : pa + count < 2 ^ 32)
    (hend : pa - offset % 512 + 512 * nsect count offset < 2 ^ 32)
    (hf : nsect count offset ≤ fuel) :
    ∃ m' ev, readseg fuel pa count offset m = some m' ∧ m'.trace = m.trace ++ ev ∧
      (sectorsRead ev).length = nsect count offset ∧
      pa + count ≤ pa - offset % 512 + 512 * nsect count offset := by
  have hn : nsect count offset = (offset % 512 + count + 511) / 512 := rfl
  obtain ⟨m', hm', -, -, -, ev, htr, hms⟩ :=
    readsegLoop_ready (pa + count) (nsect count offset) (pa - offset % 512)
      (offset / 512 + 1) fuel m hr hf hend (by omega) (fun k hk => by omega) (by omega)
  refine ⟨m', ev, ?_, htr, ?_, by omega⟩
  · simp only [readseg, SECTSIZE]
    rw [Nat.mod_eq_of_lt hw, Nat.mod_eq_of_lt (by omega : offset / 512 + 1 < 2 ^ 32)]
    have e : (pa + 2 ^ 32 - offset % 512) % 2 ^ 32 = pa - offset % 512 := by omega
    rw [e]
    exact hm'
  · rw [← sectorsRead_milestones, hms]
    have : ∀ n pa s, (sectorsRead ((List.range n).map fun k =>
        Event.readsect (pa + 512 * k) (s + k))).length = n := by
      intro n pa s
      induction n with
      | zero => rfl
      | succ n ih =>
        rw [List.range_succ, List.map_append, sectorsRead_append, List.length_append, ih]
        rfl
    exact this _ _ _

/-- C13 witness: 1000 bytes whose two sectors end one byte below the top of
the address space. -/
theorem readseg_terminates_witness :
    Ready (bootMachine fun _ => 0) ∧ 0 < 2 ^ 32 ∧ 0 % 512 ≤ 2 ^ 32 - 1025 ∧
      2 ^ 32 - 1025 + 1000 < 2 ^ 32 ∧
      2 ^ 32 - 1025 - 0 % 512 + 512 * nsect 1000 0 < 2 ^ 32 ∧ nsect 1000 0 ≤ 2 ∧
      ∃ m' ev, readseg 2 (2 ^ 32 - 1025) 1000 0 (bootMachine fun _ => 0) = some m' ∧
        m'.trace = (bootMachine fun _ => 0).trace ++ ev ∧
        (sectorsRead ev).length = nsect 1000 0 ∧
        2 ^ 32 - 1025 + 1000 ≤ 2 ^ 32 - 1025 - 0 % 512 + 512 * nsect 1000 0 :=
  ⟨bootMachine_ready _, by decide, by decide, by decide, by decide, by decide,
    readseg_terminates 2 (2 ^ 32 - 1025) 1000 0 _ (bootMachine_ready _) (by decide)
      (by decide) (by decide) (by decide) (by decide)⟩
/-! ### Sector numbers and the device-select register -/

theorem stosbCalls_append (a b : List Event) :
    stosbCalls (a ++ b) = stosbCalls a ++ stosbCalls b := by
  induction a with
  | nil => rfl
  | cons e es ih => cases e <;> simp [stosbCalls, ih]

theorem stosbCalls_pollEvents (st : Nat → Nat) (k n : Nat) :
    stosbCalls (pollEvents st k n) = [] := by
  induction n generalizing k with
  | zero => rfl
  | succ n ih => rw [pollEvents_succ_front]; simp [stosbCalls, ih]

theorem readsect_events (fuel dst s : Nat) (m m' : Machine)
    (h : readsect fuel dst s m = some m') :
    ∃ ev, m'.trace = m.trace ++ ev ∧
      portWrites 0x1F6 ev = [(s >>> 24 ||| 0xE0) % 256] ∧ sectorsRead ev = [s] ∧
      stosbCalls ev = [] := by
  obtain ⟨_, _, _, n1, n2, htr⟩ := readsect_some fuel dst s m m' h
  refine ⟨_, htr, ?_, ?_, ?_⟩
  · simp [portWrites, portWrites_append, (pollEvents_proj _ _ _).2.2.2.2.2]
  · simp [sectorsRead, sectorsRead_append, (pollEvents_proj _ _ _).2.1]
  · simp [stosbCalls, stosbCalls_append, stosbCalls_pollEvents]

/-- Whenever the loop of `readseg` completes, it has written to the
device-select register once per sector read, and has stored no string. -/
theorem readsegLoop_events (epa fuel : Nat) : ∀ (pa s : Nat) (m m' : Machine),
    readsegLoop epa fuel pa s m = some m' →
    ∃ ev, m'.trace = m.trace ++ ev ∧
      portWrites 0x1F6 ev = (sectorsRead ev).map (fun s => (s >>> 24 ||| 0xE0) % 256) ∧
      stosbCalls ev = [] := by
  induction fuel with
  | zero =>
    intro pa s m m' h
    simp only [readsegLoop] at h
    split at h
    · simp at h
    · simp only [Option.some.injEq] at h; subst h; exact ⟨[], by simp, rfl, rfl⟩
  | succ fuel ih =>
    intro pa s m m' h
    simp only [readsegLoop] at h
    split at h
    · simp only [Option.bind_eq_some] at h
      obtain ⟨m1, h1, h2⟩ := h
      obtain ⟨ev1, he1, hp1, hs1, hz1⟩ := readsect_events _ _ _ _ _ h1
      obtain ⟨ev2, he2, hp2, hz2⟩ := ih _ _ _ _ h2
      refine ⟨ev1 ++ ev2, by rw [he2, he1, List.append_assoc], ?_, ?_⟩
      · rw [portWrites_append, sectorsRead_append, List.map_append, hp1, hp2, hs1]
        rfl
      · rw [stosbCalls_append, hz1, hz2]; rfl
    · simp only [Option.some.injEq] at h; subst h; exact ⟨[], by simp, rfl, rfl⟩

theorem readseg_events (fuel pa count offset : Nat) (m m' : Machine)
    (h : readseg fuel pa count offset m = some m') :
    ∃ ev, m'.trace = m.trace ++ ev ∧
      portWrites 0x1F6 ev = (sectorsRead ev).map (fun s => (s >>> 24 ||| 0xE0) % 256) ∧
      stosbCalls ev = [] :=
  readsegLoop_events _ _ _ _ _ _ h

theorem devsel_masked (s : Nat) (hs : s < 2 ^ 28) :
    (s >>> 24 ||| 0xE0) % 256 = ((s >>> 24) &&& 0x0F) ||| 0xE0 ∧
      (((s >>> 24) &&& 0x0F) ||| 0xE0) &&& 0x10 = 0 := by
  have h1 : s >>> 24 = s / 2 ^ 24 := Nat.shiftRight_eq_div_pow s 24
  have h2 : s / 2 ^ 24 < 16 := by omega
  have h3 : ((s >>> 24) &&& 0x0F) ||| 0xE0 = s / 2 ^ 24 + 224 := by
    rw [and_15, h1, Nat.mod_eq_of_lt h2, or_224_of_lt _ h2]
  rw [h3, devsel_small s hs]
  refine ⟨rfl, ?_⟩
  generalize s / 2 ^ 24 = t at h2
  interval_cases t <;> rfl

/-- C17: with `pa >= offset % 512`, `pa + count + 511 < 2 ^ 32` and an
always-ready disk, every sector number `s` that `readseg(pa, count, offset)`
passes to `readsect` satisfies `1 <= s < 2 ^ 28`; the bytes written to the
device-select register `0x1F6` are `((s >> 24) & 0x0F) | 0xE0` for these `s`,
in order, and the drive bit `0x10` is clear in each of them. -/
theorem readseg_sectors_in_range (fuel pa count offset : Nat) (m : Machine) (hr : Ready m)
    (hoff : offset < 2 ^ 32) (hpa : offset % 512 ≤ pa) (hw : pa + count + 511 < 2 ^ 32)
    (hf : nsect count offset ≤ fuel) :
    ∃ m' ev, readseg fuel pa count offset m = some m' ∧ m'.trace = m.trace ++ ev ∧
      (∀ s, s ∈ sectorsRead ev → 1 ≤ s ∧ s < 2 ^ 28) ∧
      portWrites 0x1F6 ev = (sectorsRead ev).map (fun s => ((s >>> 24) &&& 0x0F) ||| 0xE0) ∧
      ∀ v, v ∈ portWrites 0x1F6 ev → v &&& 0x10 = 0 := by
  obtain ⟨m', hm', -, -, -, ev, htr, hms⟩ :=
    readseg_ready fuel pa count offset m hr hoff hpa hw hf
  obtain ⟨ev', htr', hpw, -⟩ := readseg_events fuel pa count offset m m' hm'
  have hev : ev' = ev := List.append_cancel_left (htr'.symm.trans htr)
  subst hev
  have hn : nsect count offset = (offset % 512 + count + 511) / 512 := rfl
  have hrange : ∀ s, s ∈ sectorsRead ev' → 1 ≤ s ∧ s < 2 ^ 28 := by
    intro s hs
    rw [← sectorsRead_milestones, hms, sectorsRead_segCalls, List.mem_map] at hs
    obtain ⟨k, hk, rfl⟩ := hs
    rw [List.mem_range] at hk
    omega
  have hpw' : portWrites 0x1F6 ev'
      = (sectorsRead ev').map (fun s => ((s >>> 24) &&& 0x0F) ||| 0xE0) := by
    rw [hpw]
    exact List.map_congr_left fun s hs => (devsel_masked s (hrange s hs).2).1
  refine ⟨m', ev', hm', htr, hrange, hpw', ?_⟩
  intro v hv
  rw [hpw', List.mem_map] at hv
  obtain ⟨s, hs, rfl⟩ := hv
  exact (devsel_masked s (hrange s hs).2).2

/-- C17 witness: 600 bytes at image offset 1000 loaded to address `0x100000`. -/
theorem readseg_sectors_in_range_witness :
    Ready (bootMachine fun _ => 0) ∧ 1000 < 2 ^ 32 ∧ 1000 % 512 ≤ 0x100000 ∧
      0x100000 + 600 + 511 < 2 ^ 32 ∧ nsect 600 1000 ≤ 3 ∧
      ∃ m' ev, readseg 3 0x100000 600 1000 (bootMachine fun _ => 0) = some m' ∧
        m'.trace = (bootMachine fun _ => 0).trace ++ ev ∧
        (∀ s, s ∈ sectorsRead ev → 1 ≤ s ∧ s < 2 ^ 28) ∧
        portWrites 0x1F6 ev
          = (sectorsRead ev).map (fun s => ((s >>> 24) &&& 0x0F) ||| 0xE0) ∧
        ∀ v, v ∈ portWrites 0x1F6 ev → v &&& 0x10 = 0 :=
  ⟨bootMachine_ready _, by decide, by decide, by decide, by decide,
    readseg_sectors_in_range 3 0x100000 600 1000 _ (bootMachine_ready _) (by decide)
      (by decide) (by decide) (by decide)⟩

/-! ### The zero fill -/

/-- C18: for the program header at `ph`, once `readseg` has returned, the loop
body of `bootmain` compares `ph->memsz` with `ph->filesz`.  If
`memsz <= filesz` (also when `memsz < filesz`) it calls no `stosb` and changes
nothing more.  If `memsz > filesz` the `uint` difference `memsz - filesz` does
not wrap and it zero-fills exactly that many bytes from `paddr + filesz` on, in
one `stosb`. -/
theorem loadSegment_zero_fill (E : ElfDecls) (fuel ph : Nat) (m m1 : Machine)
    (h1 : readseg fuel (rdField m.mem ph E.proghdr_paddr) (rdField m.mem ph E.proghdr_filesz)
      (rdField m.mem ph E.proghdr_off) m = some m1) :
    ∀ paddr filesz memsz, paddr = rdField m.mem ph E.proghdr_paddr →
      filesz = rdField m1.mem ph E.proghdr_filesz →
      memsz = rdField m1.mem ph E.proghdr_memsz →
      ∃ m', loadSegment E fuel ph m = some m' ∧
        (memsz ≤ filesz → m' = m1) ∧
        (filesz < memsz → (memsz + 2 ^ 32 - filesz) % 2 ^ 32 = memsz - filesz) ∧
        (∀ a, m'.mem a =
          if a < 2 ^ 32 ∧ adist ((paddr + filesz) % 2 ^ 32) a < memsz - filesz then 0
          else m1.mem a) ∧
        ∃ ev, m'.trace = m.trace ++ ev ∧
          stosbCalls ev =
            if filesz < memsz then [((paddr + filesz) % 2 ^ 32, 0, memsz - filesz)] else [] := by
  intro paddr filesz memsz hp hfs hms
  have hms32 : memsz < 2 ^ 32 := hms ▸ rdField_lt _ _ _
  obtain ⟨ev1, htr1, -, hz1⟩ := readseg_events _ _ _ _ _ _ h1
  have hload : loadSegment E fuel ph m = some (if filesz < memsz then
      stosb ((paddr + filesz) % 2 ^ 32) 0 ((memsz + 2 ^ 32 - filesz) % 2 ^ 32) m1 else m1) := by
    subst hp hfs hms
    simp only [loadSegment, h1, Option.some_bind, gt_iff_lt]
  rw [hload]
  by_cases hz : filesz < memsz
  · have hsub : (memsz + 2 ^ 32 - filesz) % 2 ^ 32 = memsz - filesz := by omega
    rw [if_pos hz, hsub]
    refine ⟨_, rfl, fun hle => absurd hz (by omega), fun _ => rfl, ?_, ?_⟩
    · intro a
      simp only [stosb]
      rfl
    · refine ⟨ev1 ++ [Event.stosb ((paddr + filesz) % 2 ^ 32) 0 (memsz - filesz)], ?_, ?_⟩
      · simp only [stosb, htr1, List.append_assoc]
      · rw [stosbCalls_append, hz1, if_pos hz]; rfl
  · rw [if_neg hz]
    refine ⟨_, rfl, fun _ => rfl, fun h => absurd h hz, ?_, ev1, htr1, ?_⟩
    · intro a
      rw [if_neg (by omega)]
    · rw [hz1, if_neg hz]

/-- C18 witness: the header in memory at `0x10034` has `filesz = 0x10` and
`memsz = 0x20`. -/
theorem loadSegment_zero_fill_witness :
    ∃ m1, readseg 2 (rdField headerMachine.mem 0x10034 elf32.proghdr_paddr)
        (rdField headerMachine.mem 0x10034 elf32.proghdr_filesz)
        (rdField headerMachine.mem 0x10034 elf32.proghdr_off) headerMachine = some m1 ∧
      ∃ m', loadSegment elf32 2 0x10034 headerMachine = some m' ∧
        (0x20 ≤ 0x10 → m' = m1) ∧
        (0x10 < 0x20 → (0x20 + 2 ^ 32 - 0x10) % 2 ^ 32 = 0x20 - 0x10) ∧
        (∀ a, m'.mem a =
          if a < 2 ^ 32 ∧ adist ((0x100000 + 0x10) % 2 ^ 32) a < 0x20 - 0x10 then 0
          else m1.mem a) ∧
        ∃ ev, m'.trace = headerMachine.trace ++ ev ∧
          stosbCalls ev =
            if 0x10 < 0x20 then [((0x100000 + 0x10) % 2 ^ 32, 0, 0x20 - 0x10)] else [] :=
  ⟨_, rfl, loadSegment_zero_fill elf32 2 0x10034 headerMachine _ rfl 0x100000 0x10 0x20
    (by decide) (by decide) (by decide)⟩

/-! ### Loads that may wrap around the address space -/

theorem adist_self (x : Nat) : adist x x = 0 := by
  unfold adist
  omega

/-- Stepping by 512 modulo `2 ^ 32`, every pointer reaches its slot in the
first sector of the scratch page within `2 ^ 23` steps. -/
theorem scratch_slot_reached (pa : Nat) (h : pa < 2 ^ 32) :
    ∃ k, k < 2 ^ 23 ∧ (pa + 512 * k) % 2 ^ 32 = 0x10000 + pa % 512 := by
  have hq : pa / 512 < 2 ^ 23 := by omega
  exact ⟨(2 ^ 23 + 128 - pa / 512) % 2 ^ 23, by omega, by omega⟩

/-- A loop of `readseg` that writes no byte of the scratch page ends within
`2 ^ 23` iterations. -/
theorem readsegLoop_count (epa pa : Nat) (hpa : pa < 2 ^ 32)
    (H : ∀ k, (∀ j, j ≤ k → (pa + 512 * j) % 2 ^ 32 < epa) →
      ∀ a, 0x10000 ≤ a → a < 0x11000 →
        ¬ (a < 2 ^ 32 ∧ adist ((pa + 512 * k) % 2 ^ 32) a < 512)) :
    ∃ n, n < 2 ^ 23 ∧ (∀ j, j < n → (pa + 512 * j) % 2 ^ 32 < epa) ∧
      epa ≤ (pa + 512 * n) % 2 ^ 32 := by
  obtain ⟨k, hk, hk'⟩ := scratch_slot_reached pa hpa
  have hex : ∃ j, epa ≤ (pa + 512 * j) % 2 ^ 32 ∧ j ≤ k := by
    by_contra hne
    have hall : ∀ j, j ≤ k → (pa + 512 * j) % 2 ^ 32 < epa := by
      intro j hj
      by_contra hlt
      exact hne ⟨j, by omega, hj⟩
    refine H k hall ((pa + 512 * k) % 2 ^ 32) (by omega) (by omega) ⟨by omega, ?_⟩
    rw [adist_self]
    decide
  classical
  have hex' : ∃ j, epa ≤ (pa + 512 * j) % 2 ^ 32 := ⟨hex.choose, hex.choose_spec.1⟩
  refine ⟨Nat.find hex', ?_, ?_, Nat.find_spec hex'⟩
  · have := Nat.find_min' hex' hex.choose_spec.1
    have := hex.choose_spec.2
    omega
  · intro j hj
    have := Nat.find_min hex' hj
    omega

/-- On an always-ready disk, a loop of `readseg` whose pointer, stepping
modulo `2 ^ 32`, first reaches the end after `n` iterations returns, having
changed no memory outside the `n` sectors it wrote. -/
theorem readsegLoop_wrap (epa : Nat) : ∀ (n pa s fuel : Nat) (m : Machine), Ready m →
    n ≤ fuel → pa < 2 ^ 32 → (∀ j, j < n → (pa + 512 * j) % 2 ^ 32 < epa) →
    epa ≤ (pa + 512 * n) % 2 ^ 32 →
    ∃ m', readsegLoop epa fuel pa s m = some m' ∧ m'.status = m.status ∧ m'.disk = m.disk ∧
      ∀ a, (∀ j, j < n → ¬ (a < 2 ^ 32 ∧ adist ((pa + 512 * j) % 2 ^ 32) a < 512)) →
        m'.mem a = m.mem a := by
  intro n
  induction n with
  | zero =>
    intro pa s fuel m _ _ hpa _ hepa
    refine ⟨m, ?_, rfl, rfl, fun _ _ => rfl⟩
    have : epa ≤ pa := by omega
    cases fuel <;> simp only [readsegLoop] <;> rw [if_neg (by omega)]
  | succ n ih =>
    intro pa s fuel m hr hf hpa hlt hepa
    obtain ⟨fuel, rfl⟩ : ∃ f, fuel = f + 1 := ⟨fuel - 1, by omega⟩
    have h0 : pa < epa := by have := hlt 0 (by omega); omega
    obtain ⟨m1, hm1⟩ := readsect_ready fuel pa s m hr
    obtain ⟨hd1, hst1, hmem1, -⟩ := readsect_some _ pa s m m1 hm1
    have hr1 : Ready m1 := by intro k; rw [hst1]; exact hr k
    obtain ⟨m2, hm2, hst2, hd2, hmem2⟩ :=
      ih ((pa + 512) % 2 ^ 32) ((s + 1) % 2 ^ 32) fuel m1 hr1 (by omega)
        (Nat.mod_lt _ (by decide))
        (fun j hj => by have := hlt (j + 1) (by omega); omega) (by omega)
    refine ⟨m2, ?_, by rw [hst2, hst1], by rw [hd2, hd1], ?_⟩
    · simp only [readsegLoop, if_pos h0, hm1, Option.some_bind, SECTSIZE]
      exact hm2
    · intro a ha
      rw [hmem2 a (fun j hj => by
        have := ha (j + 1) (by omega)
        have e : ((pa + 512) % 2 ^ 32 + 512 * j) % 2 ^ 32 = (pa + 512 * (j + 1)) % 2 ^ 32 := by
          omega
        rw [e]; exact this), hmem1 a]
      have := ha 0 (by omega)
      rw [if_neg (by
        have e : (pa + 512 * 0) % 2 ^ 32 = pa := by omega
        rw [e] at this; exact this)]

/-- Every address changed by a `readseg` that returns is one it writes. -/
theorem readseg_offScratch (fuel pa count offset : Nat) (m : Machine) (hr : Ready m)
    (hf : 2 ^ 23 ≤ fuel)
    (H : ∀ a, 0x10000 ≤ a → a < 0x11000 → ¬ readsegWrites pa count offset a) :
    ∃ m', readseg fuel pa count offset m = some m' ∧ m'.status = m.status ∧
      m'.disk = m.disk ∧ ∀ a, ¬ readsegWrites pa count offset a → m'.mem a = m.mem a := by
  have hpa : (pa + 2 ^ 32 - offset % SECTSIZE) % 2 ^ 32 < 2 ^ 32 := Nat.mod_lt _ (by decide)
  obtain ⟨n, hn, hlt, hge⟩ := readsegLoop_count ((pa + count) % 2 ^ 32)
    ((pa + 2 ^ 32 - offset % SECTSIZE) % 2 ^ 32) hpa
    (fun k hk a h1 h2 hw => H a h1 h2 ⟨k, hk, hw.1, hw.2⟩)
  obtain ⟨m', hm', hst, hd, hmem⟩ :=
    readsegLoop_wrap ((pa + count) % 2 ^ 32) n ((pa + 2 ^ 32 - offset % SECTSIZE) % 2 ^ 32)
      ((offset / SECTSIZE + 1) % 2 ^ 32) fuel m hr (by omega) hpa hlt hge
  refine ⟨m', hm', hst, hd, ?_⟩
  intro a ha
  apply hmem
  intro j hj hw
  exact ha ⟨j, fun i hi => hlt i (by omega), hw.1, hw.2⟩

/-- Whenever the loop of `readseg` completes, it has not transferred control. -/
theorem readsegLoop_entry (epa fuel : Nat) : ∀ (pa s : Nat) (m m' : Machine),
    readsegLoop epa fuel pa s m = some m' →
    ∃ ev, m'.trace = m.trace ++ ev ∧ entryCalls ev = [] := by
  induction fuel with
  | zero =>
    intro pa s m m' h
    simp only [readsegLoop] at h
    split at h
    · simp at h
    · simp only [Option.some.injEq] at h; subst h; exact ⟨[], by simp, rfl⟩
  | succ fuel ih =>
    intro pa s m m' h
    simp only [readsegLoop] at h
    split at h
    · simp only [Option.bind_eq_some] at h
      obtain ⟨m1, h1, h2⟩ := h
      obtain ⟨ev1, he1, hms1⟩ := readsect_milestones _ _ _ _ _ h1
      obtain ⟨ev2, he2, hz2⟩ := ih _ _ _ _ h2
      refine ⟨Event.readsect pa s :: ev1 ++ ev2, by rw [he2, he1]; simp, ?_⟩
      rw [entryCalls_append, hz2, List.append_nil]
      show entryCalls ev1 = []
      rw [← entryCalls_milestones, hms1]
      rfl
    · simp only [Option.some.injEq] at h; subst h; exact ⟨[], by simp, rfl⟩

/-- A load that wraps no address and stays off the scratch page by its ranges
writes no byte of the scratch page. -/
theorem offScratch_of_ok (p : Proghdr) (h : p.ok) : p.offScratch := by
  obtain ⟨hk1, hk2, hk3, hk4⟩ := h
  have hn : nsect p.filesz p.off = (p.off % 512 + p.filesz + 511) / 512 := rfl
  intro a h1 h2 hw
  rcases hw with ⟨k, hk, ha, hwin⟩ | ⟨hz, ha, hwin⟩
  · simp only [SECTSIZE] at hk hwin
    have e0 : (p.paddr + 2 ^ 32 - p.off % 512) % 2 ^ 32 = p.paddr - p.off % 512 := by omega
    have e1 : (p.paddr + p.filesz) % 2 ^ 32 = p.paddr + p.filesz := by omega
    rw [e0] at hwin
    rw [e0, e1] at hk
    have hkn : k < nsect p.filesz p.off := by
      by_contra hge
      have := hk (nsect p.filesz p.off) (by omega)
      omega
    have e2 : (p.paddr - p.off % 512 + 512 * k) % 2 ^ 32 = p.paddr - p.off % 512 + 512 * k := by
      omega
    rw [e2] at hwin
    have := (adist_window (p.paddr - p.off % 512 + 512 * k) a 512 (by omega)).mp ⟨ha, hwin⟩
    omega
  · have hk3' := hk3 hz
    have e1 : (p.paddr + p.filesz) % 2 ^ 32 = p.paddr + p.filesz := by omega
    rw [e1] at hwin
    have := (adist_window (p.paddr + p.filesz) a (p.memsz - p.filesz) (by omega)).mp ⟨ha, hwin⟩
    omega

/-- With the first page of the image in the scratch page and an always-ready
disk, the loop body for program header `i` of a table inside that page, whose
load writes no byte of the scratch page, returns; it is the loader of the spec
for that header, and it leaves the scratch page as it was. -/
theorem loadSegment_offScratch (E : ElfDecls) (hE : E.wf) (m0 m : Machine) (fuel i : Nat)
    (hr : Ready m) (hs : ScratchLoaded m0 m)
    (ht : tableInPage E m0) (hi : i < hdrField m0 E.elfhdr_phnum)
    (hoff : (imageProghdr E m0 i).offScratch) (hf : 2 ^ 23 ≤ fuel) :
    ∃ m', loadSegment E fuel (ELF + (hdrField m0 E.elfhdr_phoff + E.proghdr_size * i)) m
        = some m' ∧
      loadHeader (imageProghdr E m0 i) fuel m = some m' ∧
      m'.status = m.status ∧ ScratchLoaded m0 m' ∧
      ∃ ev, m'.trace = m.trace ++ ev ∧ entryCalls ev = [] := by
  obtain ⟨_, _, _, _, hsz, hfo, hfp, hff, hfm⟩ := hE
  have hmul : E.proghdr_size * (i + 1) ≤ E.proghdr_size * hdrField m0 E.elfhdr_phnum :=
    Nat.mul_le_mul_left _ hi
  have hmul' : E.proghdr_size * (i + 1) = E.proghdr_size * i + E.proghdr_size := by ring
  unfold tableInPage at ht
  have hb : hdrField m0 E.elfhdr_phoff + E.proghdr_size * i + E.proghdr_size ≤ 4096 := by omega
  -- the members of the header, read from the scratch page
  have rd : ∀ (m1 : Machine), ScratchLoaded m0 m1 → ∀ f : Field,
      f.off + f.size ≤ E.proghdr_size →
      rdField m1.mem (ELF + (hdrField m0 E.elfhdr_phoff + E.proghdr_size * i)) f
        = rdField (image m0) (hdrField m0 E.elfhdr_phoff + E.proghdr_size * i) f :=
    fun m1 h1 f hf1 => rdField_scratch m0 m1 h1 _ f (by omega)
  have hpa : ∀ m1, ScratchLoaded m0 m1 →
      rdField m1.mem (ELF + (hdrField m0 E.elfhdr_phoff + E.proghdr_size * i)) E.proghdr_paddr
        = (imageProghdr E m0 i).paddr := fun m1 h1 => rd m1 h1 _ hfp
  have hfs : ∀ m1, ScratchLoaded m0 m1 →
      rdField m1.mem (ELF + (hdrField m0 E.elfhdr_phoff + E.proghdr_size * i)) E.proghdr_filesz
        = (imageProghdr E m0 i).filesz := fun m1 h1 => rd m1 h1 _ hff
  have hof : ∀ m1, ScratchLoaded m0 m1 →
      rdField m1.mem (ELF + (hdrField m0 E.elfhdr_phoff + E.proghdr_size * i)) E.proghdr_off
        = (imageProghdr E m0 i).off := fun m1 h1 => rd m1 h1 _ hfo
  have hms : ∀ m1, ScratchLoaded m0 m1 →
      rdField m1.mem (ELF + (hdrField m0 E.elfhdr_phoff + E.proghdr_size * i)) E.proghdr_memsz
        = (imageProghdr E m0 i).memsz := fun m1 h1 => rd m1 h1 _ hfm
  have hms32 : (imageProghdr E m0 i).memsz < 2 ^ 32 := rdField_lt _ _ _
  generalize imageProghdr E m0 i = p at *
  obtain ⟨m1, hm1, hst1, -, hmem1⟩ :=
    readseg_offScratch fuel p.paddr p.filesz p.off m hr hf
      (fun a h1 h2 hw => hoff a h1 h2 (Or.inl hw))
  have hs1 : ScratchLoaded m0 m1 := by
    intro a h1 h2
    rw [hmem1 a (fun hw => hoff a h1 h2 (Or.inl hw))]
    exact hs a h1 h2
  obtain ⟨ev1, htr1⟩ : ∃ ev, m1.trace = m.trace ++ ev ∧ entryCalls ev = [] :=
    readsegLoop_entry _ _ _ _ _ _ hm1
  simp only [loadSegment, loadHeader, hpa m hs, hfs m hs, hof m hs, hm1, Option.some_bind,
    hms m1 hs1, hfs m1 hs1, gt_iff_lt]
  by_cases hz : p.filesz < p.memsz
  · have hsub : (p.memsz + 2 ^ 32 - p.filesz) % 2 ^ 32 = p.memsz - p.filesz := by omega
    simp only [if_pos hz, hsub]
    refine ⟨_, rfl, rfl, hst1, ?_, ?_⟩
    · intro a h1 h2
      simp only [stosb]
      rw [if_neg (fun hh => hoff a h1 h2 (Or.inr ⟨hz, hh.1, hh.2⟩))]
      exact hs1 a h1 h2
    · refine ⟨ev1 ++ [Event.stosb ((p.paddr + p.filesz) % 2 ^ 32) 0 (p.memsz - p.filesz)],
        ?_, ?_⟩
      · simp only [stosb, htr1.1, List.append_assoc]
      · rw [entryCalls_append, htr1.2]; rfl
  · simp only [if_neg hz]
    exact ⟨_, rfl, rfl, hst1, hs1, ev1, htr1.1, htr1.2⟩

/-- With the first page of the image in the scratch page and an always-ready
disk, the loop of `bootmain` over the remaining `k` program headers
`i, i + 1, ...` of a table inside that page, none of whose loads writes into
the scratch page, returns; it is the loader of the spec for these headers in
table order. -/
theorem phLoop_offScratch (E : ElfDecls) (hE : E.wf) (m0 : Machine) (ht : tableInPage E m0)
    (hoff : ∀ i, i < hdrField m0 E.elfhdr_phnum → (imageProghdr E m0 i).offScratch) :
    ∀ (k i fuel : Nat) (m : Machine), i + k = hdrField m0 E.elfhdr_phnum → Ready m →
      ScratchLoaded m0 m → k + 2 ^ 23 ≤ fuel →
      ∃ m', phLoop E (ELF + (hdrField m0 E.elfhdr_phoff
              + E.proghdr_size * hdrField m0 E.elfhdr_phnum)) fuel
            (ELF + (hdrField m0 E.elfhdr_phoff + E.proghdr_size * i)) m = some m' ∧
        loadHeaders E m0 k i fuel m = some m' ∧ ScratchLoaded m0 m' ∧
        ∃ ev, m'.trace = m.trace ++ ev ∧ entryCalls ev = [] := by
  intro k
  induction k with
  | zero =>
    intro i fuel m hik _ hs _
    refine ⟨m, ?_, rfl, hs, [], by simp, rfl⟩
    apply phLoop_done
    rw [← hik]; simp
  | succ k ih =>
    intro i fuel m hik hr hs hf
    obtain ⟨fuel, rfl⟩ : ∃ f, fuel = f + 1 := ⟨fuel - 1, by omega⟩
    have hi : i < hdrField m0 E.elfhdr_phnum := by omega
    obtain ⟨m1, hm1, hl1, hst1, hs1, ev1, htr1, hev1⟩ :=
      loadSegment_offScratch E hE m0 m (fuel + 1) i hr hs ht hi (hoff i hi) (by omega)
    have hr1 : Ready m1 := by intro j; rw [hst1]; exact hr j
    obtain ⟨m2, hm2, hl2, hs2, ev2, htr2, hev2⟩ :=
      ih (i + 1) fuel m1 (by omega) hr1 hs1 (by omega)
    refine ⟨m2, ?_, ?_, hs2, ev1 ++ ev2, ?_, ?_⟩
    · rw [phLoop_step E hE m0 m fuel i ht hi, hm1]
      exact hm2
    · simp only [loadHeaders, hl1, Option.some_bind, Nat.add_sub_cancel]
      exact hl2
    · rw [htr2, htr1, List.append_assoc]
    · rw [entryCalls_append, hev1, hev2]; rfl

theorem wrappedTableMachine_ready : Ready wrappedTableMachine := by
  intro k
  show (64 % 256) &&& 192 = 64
  decide

/-- With a correct magic number and the program-header table inside the first
page, once the header read has returned `bootmain` is the program-header loop
over the table in the scratch page followed by the call of the entry point. -/
theorem bootmain_after_header (E : ElfDecls) (hE : E.wf) (fuel : Nat) (m m1 : Machine)
    (hm1 : readseg fuel ELF 4096 0 m = some m1) (hs1 : ScratchLoaded m m1)
    (hmagic : hdrField m E.elfhdr_magic = E.ELF_MAGIC) (ht : tableInPage E m) :
    bootmain E fuel m =
      (phLoop E (ELF + (hdrField m E.elfhdr_phoff
          + E.proghdr_size * hdrField m E.elfhdr_phnum)) fuel
        (ELF + (hdrField m E.elfhdr_phoff + E.proghdr_size * 0)) m1).bind fun m2 =>
          some (callEntry (rdField m2.mem ELF E.elfhdr_entry) m2) := by
  obtain ⟨h1, h2, h3, h4, -⟩ := hE
  unfold tableInPage at ht
  simp only [bootmain, hm1, Option.some_bind, hdr_scratch m m1 hs1 _ h1,
    hdr_scratch m m1 hs1 _ h3, hdr_scratch m m1 hs1 _ h4, hmagic, ne_eq, not_true_eq_false,
    if_false, Nat.mul_zero, Nat.add_zero]
  have e1 : (ELF + hdrField m E.elfhdr_phoff) % 2 ^ 32 = ELF + hdrField m E.elfhdr_phoff := by
    apply Nat.mod_eq_of_lt; simp only [ELF]; omega
  have e2 : (ELF + hdrField m E.elfhdr_phoff + E.proghdr_size * hdrField m E.elfhdr_phnum)
      % 2 ^ 32 = ELF + (hdrField m E.elfhdr_phoff
        + E.proghdr_size * hdrField m E.elfhdr_phnum) := by
    rw [Nat.add_assoc]; apply Nat.mod_eq_of_lt; simp only [ELF]; omega
  rw [e1, e2]

/-- C7 (amended): for an image with a correct magic number whose
program-header table, if it has any entry, lies inside the first 4096 bytes of
the image, the page `bootmain` reads into its scratch space, and whose segment
loads do not write into the scratch page, `bootmain` (with an always-ready
disk) transfers control exactly once, to the `entry` member of the image's ELF
header, as its last action, and only after all `phnum` program headers of the
image have been processed in table order: the machine at the entry call is the
one the header read and then the loader of the spec, run on headers
`0, 1, ..., phnum - 1` in this order, produce (the one after the header read
for `phnum = 0`). -/
theorem bootmain_enters_kernel (E : ElfDecls) (hE : E.wf) (fuel : Nat) (m : Machine)
    (hr : Ready m) (hf : 2 ^ 24 ≤ fuel) (hmagic : hdrField m E.elfhdr_magic = E.ELF_MAGIC)
    (ht : hdrField m E.elfhdr_phnum = 0 ∨ tableInPage E m)
    (hoff : ∀ i, i < hdrField m E.elfhdr_phnum → (imageProghdr E m i).offScratch) :
    ∃ m1 m2, readseg fuel ELF 4096 0 m = some m1 ∧
      loadHeaders E m (hdrField m E.elfhdr_phnum) 0 fuel m1 = some m2 ∧
      (hdrField m E.elfhdr_phnum = 0 → m2 = m1) ∧
      bootmain E fuel m = some (callEntry (hdrField m E.elfhdr_entry) m2) ∧
      ∃ ev, (callEntry (hdrField m E.elfhdr_entry) m2).trace = m.trace ++ ev ∧
        entryCalls ev = [hdrField m E.elfhdr_entry] ∧
        ev.getLast? = some (Event.entry (hdrField m E.elfhdr_entry)) := by
  obtain ⟨m1, hm1, hst1, -, hs1, -, -⟩ := header_read fuel m hr (by omega)
  obtain ⟨ev1, htr1, hev1⟩ : ∃ ev, m1.trace = m.trace ++ ev ∧ entryCalls ev = [] :=
    readsegLoop_entry _ _ _ _ _ _ hm1
  have hr1 : Ready m1 := by intro j; rw [hst1]; exact hr j
  rcases ht with h0 | ht
  · -- no program header: the loop is not entered, wherever the table is
    have hboot : bootmain E fuel m = some (callEntry (hdrField m E.elfhdr_entry) m1) := by
      simp only [bootmain, hm1, Option.some_bind, hdr_scratch m m1 hs1 _ hE.1,
        hdr_scratch m m1 hs1 _ hE.2.2.2.1, hdr_scratch m m1 hs1 _ hE.2.1, hmagic, h0, ne_eq,
        not_true_eq_false, if_false, Nat.mul_zero, Nat.add_zero, Nat.mod_mod]
      rw [phLoop_done E _ fuel _ m1 (Nat.le_refl _), Option.some_bind,
        hdr_scratch m m1 hs1 _ hE.2.1]
    refine ⟨m1, m1, hm1, by rw [h0]; rfl, fun _ => rfl, hboot,
      ev1 ++ [Event.entry (hdrField m E.elfhdr_entry)], ?_, ?_, ?_⟩
    · simp only [callEntry, htr1, List.append_assoc]
    · rw [entryCalls_append, hev1]; rfl
    · simp
  · have hboot := bootmain_after_header E hE fuel m m1 hm1 hs1 hmagic ht
    have hnum : hdrField m E.elfhdr_phnum ≤ 4096 := by
      have h5 := hE.2.2.2.2.1
      unfold tableInPage at ht
      have : hdrField m E.elfhdr_phnum ≤ E.proghdr_size * hdrField m E.elfhdr_phnum :=
        Nat.le_mul_of_pos_left _ h5
      omega
    obtain ⟨m2, hm2, hl2, hs2, ev2, htr2, hev2⟩ :=
      phLoop_offScratch E hE m ht hoff (hdrField m E.elfhdr_phnum) 0 fuel m1 (by omega) hr1
        hs1 (by omega)
    rw [hm2, Option.some_bind, hdr_scratch m m2 hs2 _ hE.2.1] at hboot
    refine ⟨m1, m2, hm1, hl2, ?_, hboot,
      ev1 ++ ev2 ++ [Event.entry (hdrField m E.elfhdr_entry)], ?_, ?_, ?_⟩
    · intro h0
      rw [h0] at hl2
      exact (Option.some.inj hl2).symm
    · simp only [callEntry, htr2, htr1, List.append_assoc]
    · rw [entryCalls_append, entryCalls_append, hev1, hev2]
      rfl
    · simp

/-- C7 witness: the two-segment image. -/
theorem bootmain_enters_kernel_witness :
    elf32.wf ∧ Ready (bootMachine twoSegmentDisk) ∧ 2 ^ 24 ≤ 2 ^ 24 ∧
      hdrField (bootMachine twoSegmentDisk) elf32.elfhdr_magic = elf32.ELF_MAGIC ∧
      (hdrField (bootMachine twoSegmentDisk) elf32.elfhdr_phnum = 0 ∨
        tableInPage elf32 (bootMachine twoSegmentDisk)) ∧
      (∀ i, i < hdrField (bootMachine twoSegmentDisk) elf32.elfhdr_phnum →
        (imageProghdr elf32 (bootMachine twoSegmentDisk) i).offScratch) ∧
      ∃ m1 m2, readseg (2 ^ 24) ELF 4096 0 (bootMachine twoSegmentDisk) = some m1 ∧
        loadHeaders elf32 (bootMachine twoSegmentDisk)
          (hdrField (bootMachine twoSegmentDisk) elf32.elfhdr_phnum) 0 (2 ^ 24) m1 = some m2 ∧
        (hdrField (bootMachine twoSegmentDisk) elf32.elfhdr_phnum = 0 → m2 = m1) ∧
        bootmain elf32 (2 ^ 24) (bootMachine twoSegmentDisk)
          = some (callEntry (hdrField (bootMachine twoSegmentDisk) elf32.elfhdr_entry) m2) ∧
        ∃ ev, (callEntry (hdrField (bootMachine twoSegmentDisk) elf32.elfhdr_entry) m2).trace
            = (bootMachine twoSegmentDisk).trace ++ ev ∧
          entryCalls ev = [hdrField (bootMachine twoSegmentDisk) elf32.elfhdr_entry] ∧
          ev.getLast?
            = some (Event.entry (hdrField (bootMachine twoSegmentDisk) elf32.elfhdr_entry)) :=
  ⟨by decide, bootMachine_ready _, by decide, by decide, by decide,
    fun i hi => offScratch_of_ok _
      ((by decide : ∀ i, i < hdrField (bootMachine twoSegmentDisk) elf32.elfhdr_phnum →
        (imageProghdr elf32 (bootMachine twoSegmentDisk) i).ok) i hi),
    bootmain_enters_kernel elf32 (by decide) (2 ^ 24) _ (bootMachine_ready _) (by decide)
      (by decide) (by decide)
      (fun i hi => offScratch_of_ok _
        ((by decide : ∀ i, i < hdrField (bootMachine twoSegmentDisk) elf32.elfhdr_phnum →
          (imageProghdr elf32 (bootMachine twoSegmentDisk) i).ok) i hi))⟩

theorem entry_mismatch (b : Option Machine) (m2 : Machine) (e : Nat) (X Y : List Event)
    (F1 : b.map (fun m => milestones m.trace) = some X)
    (F2 : milestones (callEntry e m2).trace = Y) (hne : X ≠ Y) :
    b ≠ some (callEntry e m2) := by
  intro hb
  rw [hb, Option.map_some', F2] at F1
  exact hne (Option.some.inj F1).symm

set_option maxRecDepth 100000 in
/-- C7 (as stated) fails, in two ways.  Both images have a correct magic
number and program headers whose loads write nothing into the scratch page
(header 0 asks for one byte at `0x100000`).
With `phoff = 0xFFFEFFE0` and `phnum = 2`, `ph = 0x10000 + phoff = 0xFFFFFFE0`
and `eph = ph + 2` wraps to `0x20`, so `ph < eph` is false at once: `bootmain`
calls the entry point right after the header read, although processing the
headers, those of the image or the equal bytes lying in memory at
`0xFFFFFFE0`, reads a sector to `0x100000`.
With `phoff = 0x1000` and `phnum = 1` the table lies behind the page `bootmain`
has read: the loop runs over the zero bytes in memory at `0x11000`, and the
program header of the image is never processed. -/
theorem bootmain_entry_counterexample :
    (elf32.wf ∧ Ready wrappedTableMachine ∧
      hdrField wrappedTableMachine elf32.elfhdr_magic = elf32.ELF_MAGIC ∧
      hdrField wrappedTableMachine elf32.elfhdr_phnum = 2 ∧
      ¬ tableInPage elf32 wrappedTableMachine ∧
      (∀ i, i < 2 → (imageProghdr elf32 wrappedTableMachine i).offScratch) ∧
      (bootmain elf32 (2 ^ 24) wrappedTableMachine).map (fun m => milestones m.trace)
        = some (segCalls ELF 4096 0 ++ [Event.entry 0]) ∧
      ((readseg (2 ^ 24) ELF 4096 0 wrappedTableMachine).bind
          (loadHeaders elf32 wrappedTableMachine 2 0 (2 ^ 24))).map
            (fun m => milestones (callEntry 0 m).trace)
        = some (segCalls ELF 4096 0 ++ [Event.readsect 0x100000 1, Event.entry 0]) ∧
      ((readseg (2 ^ 24) ELF 4096 0 wrappedTableMachine).bind
          (loadSegment elf32 (2 ^ 24) 0xFFFFFFE0)).map (fun m => milestones m.trace)
        = some (segCalls ELF 4096 0 ++ [Event.readsect 0x100000 1]) ∧
      ¬ ∃ m1 m2, readseg (2 ^ 24) ELF 4096 0 wrappedTableMachine = some m1 ∧
        loadHeaders elf32 wrappedTableMachine 2 0 (2 ^ 24) m1 = some m2 ∧
        bootmain elf32 (2 ^ 24) wrappedTableMachine
          = some (callEntry (hdrField wrappedTableMachine elf32.elfhdr_entry) m2)) ∧
    (Ready (bootMachine farTableDisk) ∧
      hdrField (bootMachine farTableDisk) elf32.elfhdr_magic = elf32.ELF_MAGIC ∧
      hdrField (bootMachine farTableDisk) elf32.elfhdr_phoff = 0x1000 ∧
      hdrField (bootMachine farTableDisk) elf32.elfhdr_phnum = 1 ∧
      ¬ tableInPage elf32 (bootMachine farTableDisk) ∧
      (∀ i, i < 1 → (imageProghdr elf32 (bootMachine farTableDisk) i).offScratch) ∧
      (bootmain elf32 (2 ^ 24) (bootMachine farTableDisk)).map (fun m => milestones m.trace)
        = some (segCalls ELF 4096 0 ++ [Event.entry 0]) ∧
      ((readseg (2 ^ 24) ELF 4096 0 (bootMachine farTableDisk)).bind
          (loadHeaders elf32 (bootMachine farTableDisk) 1 0 (2 ^ 24))).map
            (fun m => milestones (callEntry 0 m).trace)
        = some (segCalls ELF 4096 0 ++ [Event.readsect 0x100000 1, Event.entry 0]) ∧
      ¬ ∃ m1 m2, readseg (2 ^ 24) ELF 4096 0 (bootMachine farTableDisk) = some m1 ∧
        loadHeaders elf32 (bootMachine farTableDisk) 1 0 (2 ^ 24) m1 = some m2 ∧
        bootmain elf32 (2 ^ 24) (bootMachine farTableDisk)
          = some (callEntry (hdrField (bootMachine farTableDisk) elf32.elfhdr_entry) m2)) := by
  have A1 : (bootmain elf32 (2 ^ 24) wrappedTableMachine).map (fun m => milestones m.trace)
      = some (segCalls ELF 4096 0 ++ [Event.entry 0]) := by decide
  have A2 : ((readseg (2 ^ 24) ELF 4096 0 wrappedTableMachine).bind
        (loadHeaders elf32 wrappedTableMachine 2 0 (2 ^ 24))).map
          (fun m => milestones (callEntry 0 m).trace)
      = some (segCalls ELF 4096 0 ++ [Event.readsect 0x100000 1, Event.entry 0]) := by decide
  have B1 : (bootmain elf32 (2 ^ 24) (bootMachine farTableDisk)).map
      (fun m => milestones m.trace) = some (segCalls ELF 4096 0 ++ [Event.entry 0]) := by decide
  have B2 : ((readseg (2 ^ 24) ELF 4096 0 (bootMachine farTableDisk)).bind
        (loadHeaders elf32 (bootMachine farTableDisk) 1 0 (2 ^ 24))).map
          (fun m => milestones (callEntry 0 m).trace)
      = some (segCalls ELF 4096 0 ++ [Event.readsect 0x100000 1, Event.entry 0]) := by decide
  have eA : hdrField wrappedTableMachine elf32.elfhdr_entry = 0 := by decide
  have eB : hdrField (bootMachine farTableDisk) elf32.elfhdr_entry = 0 := by decide
  refine ⟨⟨by decide, wrappedTableMachine_ready, by decide, by decide, by decide,
      fun i hi => offScratch_of_ok _
        ((by decide : ∀ i, i < 2 → (imageProghdr elf32 wrappedTableMachine i).ok) i hi),
      A1, A2, by decide, ?_⟩,
    ⟨bootMachine_ready _, by decide, by decide, by decide, by decide,
      fun i hi => offScratch_of_ok _
        ((by decide : ∀ i, i < 1 → (imageProghdr elf32 (bootMachine farTableDisk) i).ok) i hi),
      B1, B2, ?_⟩⟩
  · rintro ⟨m1, m2, h1, h2, h3⟩
    rw [h1, Option.some_bind, h2, Option.map_some', Option.some.injEq] at A2
    rw [eA] at h3
    exact entry_mismatch _ m2 0 _ _ A1 A2 (by decide) h3
  · rintro ⟨m1, m2, h1, h2, h3⟩
    rw [h1, Option.some_bind, h2, Option.map_some', Option.some.injEq] at B2
    rw [eB] at h3
    exact entry_mismatch _ m2 0 _ _ B1 B2 (by decide) h3

end Bootmain
